import Mathlib

/-!
Verification of the Blood-Flow-Analyzer CEUS analysis core.

This file gives a shallow embedding, in Lean 4, of the numerical core of the
repository (flash/washout event detection, LOESS smoothing, curve metrics,
multi-start model fitting, DICOM region classification, and CEUS
preprocessing), and proves or refutes the frozen specification claims about
those components.

Conventions:
* `numpy` float arrays are modelled as Lean lists over `ℚ` (exact arithmetic)
  except where the source computes genuinely irrational values
  (`sqrt`, `log`, `exp`, `Gamma`), which are modelled over `ℝ`.
* `np.argmin` / `np.argmax` return the first index attaining the extremum;
  the embeddings `argminIdx` / `argmaxIdx` mirror that.
* Python slices `l[s:e]` are modelled as `(l.take e).drop s`.
-/

namespace BloodFlow

/-! ## Generic list helpers shared by several embeddings -/

/-- `np.diff`: successive differences `l[i+1] - l[i]`, length `n-1`. -/
def diffList (l : List ℚ) : List ℚ :=
  List.zipWith (fun a b => a - b) l.tail l

/-- First index of the minimum value of a list (`np.argmin` tie-breaking).
Returns `0` on the empty list (where `np.argmin` raises). -/
def argminIdx : List ℚ → ℕ
  | [] => 0
  | [_] => 0
  | a :: b :: t =>
    if a ≤ (b :: t).getD (argminIdx (b :: t)) 0 then 0 else argminIdx (b :: t) + 1

/-- First index of the maximum value of a list (`np.argmax` tie-breaking). -/
def argmaxIdx : List ℚ → ℕ
  | [] => 0
  | [_] => 0
  | a :: b :: t =>
    if (b :: t).getD (argmaxIdx (b :: t)) 0 ≤ a then 0 else argmaxIdx (b :: t) + 1

theorem argminIdx_lt_length {l : List ℚ} (h : l ≠ []) : argminIdx l < l.length := by
  induction l with
  | nil => exact absurd rfl h
  | cons a t ih =>
    cases t with
    | nil => simp [argminIdx]
    | cons b u =>
      have ht : (b :: u) ≠ [] := by simp
      simp only [argminIdx]
      split
      · simp
      · have := ih ht
        simpa using Nat.succ_lt_succ this

theorem argminIdx_le {l : List ℚ} :
    ∀ j, j < l.length → l.getD (argminIdx l) 0 ≤ l.getD j 0 := by
  induction l with
  | nil => intro j hj; simp at hj
  | cons a t ih =>
    cases t with
    | nil =>
      intro j hj
      match j, hj with
      | 0, _ => simp [argminIdx]
    | cons b u =>
      intro j hj
      have ht : (b :: u) ≠ [] := by simp
      simp only [argminIdx]
      split
      · rename_i hle
        -- chosen index 0, value a
        match j, hj with
        | 0, _ => simp
        | (j+1), hj =>
          have hj' : j < (b :: u).length := by simpa using Nat.lt_of_succ_lt_succ hj
          have := ih j hj'
          simpa using le_trans hle this
      · rename_i hgt
        push_neg at hgt
        match j, hj with
        | 0, _ => simpa using le_of_lt hgt
        | (j+1), hj =>
          have hj' : j < (b :: u).length := by simpa using Nat.lt_of_succ_lt_succ hj
          simpa using ih j hj'

theorem argminIdx_first {l : List ℚ} :
    ∀ j, j < argminIdx l → l.getD j 0 > l.getD (argminIdx l) 0 := by
  induction l with
  | nil => intro j hj; simp [argminIdx] at hj
  | cons a t ih =>
    cases t with
    | nil => intro j hj; simp [argminIdx] at hj
    | cons b u =>
      intro j hj
      simp only [argminIdx] at hj ⊢
      split at hj
      · omega
      · rename_i hgt
        push_neg at hgt
        rw [if_neg (not_le.mpr hgt)]
        match j, hj with
        | 0, _ => simpa using hgt
        | (j+1), hj =>
          have hj' : j < argminIdx (b :: u) := Nat.lt_of_succ_lt_succ hj
          simpa using ih j hj'

theorem argmaxIdx_lt_length {l : List ℚ} (h : l ≠ []) : argmaxIdx l < l.length := by
  induction l with
  | nil => exact absurd rfl h
  | cons a t ih =>
    cases t with
    | nil => simp [argmaxIdx]
    | cons b u =>
      have ht : (b :: u) ≠ [] := by simp
      simp only [argmaxIdx]
      split
      · simp
      · have := ih ht
        simpa using Nat.succ_lt_succ this

theorem argmaxIdx_ge {l : List ℚ} :
    ∀ j, j < l.length → l.getD j 0 ≤ l.getD (argmaxIdx l) 0 := by
  induction l with
  | nil => intro j hj; simp at hj
  | cons a t ih =>
    cases t with
    | nil =>
      intro j hj
      match j, hj with
      | 0, _ => simp [argmaxIdx]
    | cons b u =>
      intro j hj
      simp only [argmaxIdx]
      split
      · rename_i hle
        match j, hj with
        | 0, _ => simp
        | (j+1), hj =>
          have hj' : j < (b :: u).length := by simpa using Nat.lt_of_succ_lt_succ hj
          have := ih j hj'
          simpa using le_trans this hle
      · rename_i hgt
        push_neg at hgt
        match j, hj with
        | 0, _ => simpa using le_of_lt hgt
        | (j+1), hj =>
          have hj' : j < (b :: u).length := by simpa using Nat.lt_of_succ_lt_succ hj
          simpa using ih j hj'

theorem argmaxIdx_first {l : List ℚ} :
    ∀ j, j < argmaxIdx l → l.getD j 0 < l.getD (argmaxIdx l) 0 := by
  induction l with
  | nil => intro j hj; simp [argmaxIdx] at hj
  | cons a t ih =>
    cases t with
    | nil => intro j hj; simp [argmaxIdx] at hj
    | cons b u =>
      intro j hj
      simp only [argmaxIdx] at hj ⊢
      split at hj
      · omega
      · rename_i hgt
        push_neg at hgt
        rw [if_neg (not_le.mpr hgt)]
        match j, hj with
        | 0, _ => simpa using hgt
        | (j+1), hj =>
          have hj' : j < argmaxIdx (b :: u) := Nat.lt_of_succ_lt_succ hj
          simpa using ih j hj'

theorem getD_drop (l : List ℚ) (s i : ℕ) :
    (l.drop s).getD i 0 = l.getD (s + i) 0 := by
  induction l generalizing s with
  | nil => simp
  | cons a t ih =>
    cases s with
    | zero => simp
    | succ s =>
      have hidx : s + 1 + i = (s + i) + 1 := by omega
      simp only [List.drop_succ_cons, hidx, List.getD_cons_succ]
      exact ih s

theorem getD_take {l : List ℚ} {e i : ℕ} (h : i < e) :
    (l.take e).getD i 0 = l.getD i 0 := by
  induction l generalizing e i with
  | nil => simp
  | cons a t ih =>
    cases e with
    | zero => omega
    | succ e =>
      cases i with
      | zero => simp
      | succ i => simpa using ih (Nat.lt_of_succ_lt_succ h)

theorem length_diffList (l : List ℚ) : (diffList l).length = l.length - 1 := by
  cases l with
  | nil => simp [diffList]
  | cons a t => simp [diffList, List.length_zipWith]

theorem getD_diffList {l : List ℚ} {i : ℕ} (h : i + 1 < l.length) :
    (diffList l).getD i 0 = l.getD (i + 1) 0 - l.getD i 0 := by
  induction l generalizing i with
  | nil => simp at h
  | cons a t ih =>
    cases t with
    | nil => simp at h
    | cons b u =>
      cases i with
      | zero => simp [diffList]
      | succ i =>
        have h' : i + 1 < (b :: u).length := by simpa using Nat.lt_of_succ_lt_succ h
        simpa [diffList] using ih h'

/-! ## EventDetector: `src/ceus_app_pyqt/src/core/flash_detection.py` -/

/-- Mean of all scalar samples of one frame (`frame.mean()` over all axes).
The empty frame (where numpy would emit `nan`) is sent to `0`. -/
def frameMean (f : List (List ℚ)) : ℚ :=
  f.flatten.sum / (f.flatten.length : ℚ)

/-- `detect_flash_ceus_refined` from `flash_detection.py`:
per-frame mean intensity, first difference, flash = first index (past the
excluded leading segment) of the most negative difference, washout = first
index of the minimal intensity in `[flash, min(T, flash+search_window))`.
Returns `(flash_idx, washout_idx, intensities)`. -/
def detect_flash_ceus_refined (stack : List (List (List ℚ)))
    (excludeFirstN searchWindow : ℕ) : ℕ × ℕ × List ℚ :=
  let intensities := stack.map frameMean
  let T := intensities.length
  let startFrame := min excludeFirstN (T / 10)
  let gradients := diffList intensities
  let flashIdx := startFrame + argminIdx (gradients.drop startFrame)
  let searchEnd := min T (flashIdx + searchWindow)
  let washoutIdx := flashIdx + argminIdx ((intensities.take searchEnd).drop flashIdx)
  (flashIdx, washoutIdx, intensities)

/-- C6: for a CEUS stack with at least 2 frames and a positive search window,
`detect_flash_ceus_refined` returns the per-frame mean-intensity trace, a
flash index that is the first minimizer of the first difference of that trace
among indices `≥ s` (with `s = min(excludedLeadingFrameCount, ⌊T/10⌋)`), and a
washout index that is the first minimizer of the trace itself in the half-open
window `[flash, min(T, flash + searchWindow))`. -/
theorem C6_event_detection (stack : List (List (List ℚ))) (excl wind f w : ℕ)
    (tr : List ℚ) (hT : 2 ≤ stack.length) (hw : 1 ≤ wind)
    (hrun : detect_flash_ceus_refined stack excl wind = (f, w, tr)) :
    tr = stack.map frameMean ∧
    min excl (stack.length / 10) ≤ f ∧ f + 1 < stack.length ∧
    (∀ j, min excl (stack.length / 10) ≤ j → j + 1 < stack.length →
      (diffList tr).getD f 0 ≤ (diffList tr).getD j 0) ∧
    (∀ j, min excl (stack.length / 10) ≤ j → j < f →
      (diffList tr).getD f 0 < (diffList tr).getD j 0) ∧
    f ≤ w ∧ w < min stack.length (f + wind) ∧
    (∀ j, f ≤ j → j < min stack.length (f + wind) → tr.getD w 0 ≤ tr.getD j 0) ∧
    (∀ j, f ≤ j → j < w → tr.getD w 0 < tr.getD j 0) := by
  simp only [detect_flash_ceus_refined, List.length_map, Prod.mk.injEq] at hrun
  obtain ⟨hf, hw', htr⟩ := hrun
  subst htr
  subst hf
  subst hw'
  set tr := stack.map frameMean with htr
  have hTtr : tr.length = stack.length := by simp [htr]
  set T := stack.length with hTdef
  set s := min excl (T / 10) with hs
  set g := diffList tr with hg
  have hgl : g.length = T - 1 := by rw [hg, length_diffList, hTtr]
  have hsT : s + 1 < T := by
    have h1 : s ≤ T / 10 := min_le_right _ _
    omega
  have hdl : (g.drop s).length = g.length - s := List.length_drop ..
  have hdropne : (g.drop s) ≠ [] := by
    intro hnil
    rw [hnil] at hdl
    simp at hdl
    omega
  have ha := argminIdx_lt_length hdropne
  set a := argminIdx (g.drop s) with hadef
  have hal : a < g.length - s := by omega
  have hfT : s + a + 1 < T := by omega
  -- flash minimality
  have hflashmin : ∀ j, s ≤ j → j + 1 < T →
      g.getD (s + a) 0 ≤ g.getD j 0 := by
    intro j hjs hjT
    have hj' : j - s < (g.drop s).length := by omega
    have hle := argminIdx_le (l := g.drop s) (j - s) hj'
    rw [getD_drop, getD_drop] at hle
    have hjeq : s + (j - s) = j := by omega
    rwa [hjeq] at hle
  have hflashfirst : ∀ j, s ≤ j → j < s + a →
      g.getD (s + a) 0 < g.getD j 0 := by
    intro j hjs hjf
    have hj' : j - s < a := by omega
    have hlt := argminIdx_first (l := g.drop s) (j - s) hj'
    rw [getD_drop, getD_drop] at hlt
    have hjeq : s + (j - s) = j := by omega
    rw [hjeq] at hlt
    exact hlt
  -- washout part
  set e := min T (s + a + wind) with he
  have hfe : s + a < e := by omega
  have heT : e ≤ T := min_le_left _ _
  set sl := (tr.take e).drop (s + a) with hsl
  have hsll : sl.length = e - (s + a) := by
    rw [hsl, List.length_drop, List.length_take, hTtr]
    omega
  have hslne : sl ≠ [] := by
    intro hnil
    rw [hnil] at hsll
    simp at hsll
    omega
  have hb := argminIdx_lt_length hslne
  set b := argminIdx sl with hbdef
  have hbl : b < e - (s + a) := by omega
  have hslget : ∀ i, s + a + i < e → sl.getD i 0 = tr.getD (s + a + i) 0 := by
    intro i hi
    rw [hsl, getD_drop, getD_take hi]
  refine ⟨rfl, by omega, by omega, hflashmin, hflashfirst, by omega, by omega, ?_, ?_⟩
  · intro j hjf hje
    have hj' : j - (s + a) < sl.length := by omega
    have hle := argminIdx_le (l := sl) (j - (s + a)) hj'
    rw [hslget b (by omega), hslget (j - (s + a)) (by omega)] at hle
    have hjeq : s + a + (j - (s + a)) = j := by omega
    rwa [hjeq] at hle
  · intro j hjf hjw
    have hj' : j - (s + a) < b := by omega
    have hlt := argminIdx_first (l := sl) (j - (s + a)) hj'
    rw [hslget b (by omega), hslget (j - (s + a)) (by omega)] at hlt
    have hjeq : s + a + (j - (s + a)) = j := by omega
    rw [hjeq] at hlt
    exact hlt

/-- Witness for C6 on a concrete 2-frame stack. -/
theorem C6_event_detection_witness :
    2 ≤ ([[[ (3:ℚ) ]], [[ (1:ℚ) ]]] : List (List (List ℚ))).length ∧
    (1:ℕ) ≤ 20 ∧
    detect_flash_ceus_refined [[[ (3:ℚ) ]], [[ (1:ℚ) ]]] 5 20 = (0, 1, [3, 1]) ∧
    ([3, 1] : List ℚ) = [[[ (3:ℚ) ]], [[ (1:ℚ) ]]].map frameMean := by
  refine ⟨by decide, by decide,
    by norm_num [detect_flash_ceus_refined, frameMean, diffList, argminIdx], ?_⟩
  have h := C6_event_detection [[[ (3:ℚ) ]], [[ (1:ℚ) ]]] 5 20 0 1 [3, 1]
    (by decide) (by decide)
    (by norm_num [detect_flash_ceus_refined, frameMean, diffList, argminIdx])
  exact h.1

/-! ## Smoother: `src/src/utils/loess.py` -/

/-- The tri-cube kernel `_tricube`: `(1 - clip(|u|, 0, 1)^3)^3`. -/
def tricube (u : ℚ) : ℚ :=
  (1 - (min (max |u| 0) 1) ^ 3) ^ 3

/-- Neighborhood size of `loess_smooth` (loess.py lines 40-44):
`p_min = 2` for degree `≥ 2` else `1`; `k = floor(clip(span,0,1)·n)`;
`k = max(p_min+1, k)`; `k = min(max(k,2), max(n-1,1))`. -/
def loessK (span : ℚ) (degree n : ℕ) : ℕ :=
  let pmin : ℕ := if 2 ≤ degree then 2 else 1
  let k0 : ℕ := (⌊(max 0 (min 1 span)) * n⌋).toNat
  let k1 := max (pmin + 1) k0
  min (max k1 2) (max (n - 1) 1)

/-- `np.partition(l, kk-1)[kk-1]`: the `kk`-th smallest element of `l`
(1-based).  `loess_smooth` only calls this with `kk ≥ 1`. -/
def kthSmallest (l : List ℚ) (kk : ℕ) : ℚ :=
  (l.mergeSort (fun a b => decide (a ≤ b))).getD (kk - 1) 0

/-- `float(np.max(l))`, with `0` for the empty list (where numpy raises). -/
def maxQ (l : List ℚ) : ℚ := (l.max?).getD 0

/-- A data point of one local weighted fit: normalized abscissa
`z = (x - xi)/dk`, ordinate `y`, tri-cube weight `w`. -/
structure LPt where
  z : ℚ
  y : ℚ
  w : ℚ

/-- Entry `Σ w·z^j` of the weighted normal matrix `Xᵀ W X`. -/
def momentSum (pts : List LPt) (j : ℕ) : ℚ :=
  (pts.map (fun p => p.w * p.z ^ j)).sum

/-- Component `Σ w·z^j·y` of the weighted normal right-hand side `Xᵀ W y`. -/
def rhsSum (pts : List LPt) (j : ℕ) : ℚ :=
  (pts.map (fun p => p.w * p.z ^ j * p.y)).sum

/-- `Xᵀ W X` for the quadratic (degree ≥ 2) local design `[1, z, z²]`. -/
def normalMat3 (pts : List LPt) : Matrix (Fin 3) (Fin 3) ℚ :=
  !![momentSum pts 0, momentSum pts 1, momentSum pts 2;
     momentSum pts 1, momentSum pts 2, momentSum pts 3;
     momentSum pts 2, momentSum pts 3, momentSum pts 4]

/-- `Xᵀ W y` for the quadratic local design. -/
def normalVec3 (pts : List LPt) : Fin 3 → ℚ :=
  ![rhsSum pts 0, rhsSum pts 1, rhsSum pts 2]

/-- `Xᵀ W X` for the linear (degree 1) local design `[1, z]`. -/
def normalMat2 (pts : List LPt) : Matrix (Fin 2) (Fin 2) ℚ :=
  !![momentSum pts 0, momentSum pts 1;
     momentSum pts 1, momentSum pts 2]

/-- `Xᵀ W y` for the linear local design. -/
def normalVec2 (pts : List LPt) : Fin 2 → ℚ :=
  ![rhsSum pts 0, rhsSum pts 1]

/-- Coefficients of the characteristic polynomial
`t³ - c2·t² + c1·t - c0` of a 3×3 matrix: trace, sum of principal 2×2
minors, determinant. -/
def c2of (M : Matrix (Fin 3) (Fin 3) ℚ) : ℚ := M 0 0 + M 1 1 + M 2 2

def c1of (M : Matrix (Fin 3) (Fin 3) ℚ) : ℚ :=
  (M 0 0 * M 1 1 - M 0 1 * M 1 0) + (M 0 0 * M 2 2 - M 0 2 * M 2 0) +
    (M 1 1 * M 2 2 - M 1 2 * M 2 1)

def c0of (M : Matrix (Fin 3) (Fin 3) ℚ) : ℚ :=
  M 0 0 * (M 1 1 * M 2 2 - M 1 2 * M 2 1) -
    M 0 1 * (M 1 0 * M 2 2 - M 1 2 * M 2 0) +
    M 0 2 * (M 1 0 * M 2 1 - M 1 1 * M 2 0)

/-- `np.linalg.lstsq(M, v)` in exact arithmetic for a symmetric
positive-semidefinite `M` and a consistent system: the minimum-norm solution
of `M β = v`, computed through the characteristic polynomial of `M` (cases on
the rank). -/
def lstsq3 (M : Matrix (Fin 3) (Fin 3) ℚ) (v : Fin 3 → ℚ) : Fin 3 → ℚ :=
  if c0of M ≠ 0 then
    (c0of M)⁻¹ • (M.mulVec (M.mulVec v) - c2of M • M.mulVec v + c1of M • v)
  else if c1of M ≠ 0 then (c1of M)⁻¹ • (c2of M • v - M.mulVec v)
  else if c2of M ≠ 0 then (c2of M)⁻¹ • v
  else 0

/-- 2×2 analogue of `lstsq3` (characteristic polynomial `t² - c1·t + c0`). -/
def lstsq2 (M : Matrix (Fin 2) (Fin 2) ℚ) (v : Fin 2 → ℚ) : Fin 2 → ℚ :=
  if M.det ≠ 0 then (M.det)⁻¹ • ((M 0 0 + M 1 1) • v - M.mulVec v)
  else if M 0 0 + M 1 1 ≠ 0 then (M 0 0 + M 1 1)⁻¹ • v
  else 0

/-- `d_nonzero` of loess.py line 52: the non-zero distances from `xi` to the
sample abscissae. -/
def nonzeroDists (xs : List ℚ) (xi : ℚ) : List ℚ :=
  (xs.map (fun xj => |xj - xi|)).filter (fun v => decide (0 < v))

/-- The bandwidth `dk` of one evaluation point of `loess_smooth` (loess.py
lines 52-59): the `min(k, #nonzero)`-th smallest non-zero distance from `xi`
to the (sorted, deduplicated) sample abscissae, with the source's fallbacks
for empty / degenerate distance sets. -/
def loessDk (xs : List ℚ) (k : ℕ) (xi : ℚ) : ℚ :=
  if (nonzeroDists xs xi).length = 0 then 1
  else if kthSmallest (nonzeroDists xs xi) (min k (nonzeroDists xs xi).length) ≤ 0
    then (if 0 < maxQ (nonzeroDists xs xi) then maxQ (nonzeroDists xs xi) else 1)
  else kthSmallest (nonzeroDists xs xi) (min k (nonzeroDists xs xi).length)

/-- The weighted sample of one local fit (loess.py lines 61-69): tri-cube
weights `w = tricube(d/dk)`, normalized abscissae `z = (x - xi)/dk`,
restricted to the points of non-zero weight. -/
def localPts (xs ys : List ℚ) (k : ℕ) (xi : ℚ) : List LPt :=
  ((xs.zip ys).map (fun p =>
      (⟨(p.1 - xi) / loessDk xs k xi, p.2,
        tricube (|p.1 - xi| / loessDk xs k xi)⟩ : LPt))).filter
    (fun p => decide (0 < p.w))

/-- One iteration of the evaluation loop of `loess_smooth` (loess.py lines
48-82) at evaluation point `xi`: weighted polynomial fit of the requested
degree via the normal equations over `localPts`, returning the fitted
intercept `beta[0]`.  The `except` fallback of the source (weighted average)
is unreachable in exact arithmetic and is not modelled. -/
def localFit (xs ys : List ℚ) (k degree : ℕ) (xi : ℚ) : ℚ :=
  if 2 ≤ degree then
    lstsq3 (normalMat3 (localPts xs ys k xi)) (normalVec3 (localPts xs ys k xi)) 0
  else
    lstsq2 (normalMat2 (localPts xs ys k xi)) (normalVec2 (localPts xs ys k xi)) 0

/-- `np.unique` on a list of `(x, y)` pairs already sorted by `x`: keep, for
each run of equal `x` values, the first pair (`return_index` semantics). -/
def dedupByX : List (ℚ × ℚ) → List (ℚ × ℚ)
  | [] => []
  | [p] => [p]
  | p :: q :: t =>
    if p.1 = q.1 then dedupByX (p :: t) else p :: dedupByX (q :: t)
termination_by l => l.length

/-- `np.interp` over nodes `(x, f)` with strictly increasing `x`:
piecewise-linear interpolation, clamping to the end values outside the node
range. -/
def interpPts : List (ℚ × ℚ) → ℚ → ℚ
  | [], _ => 0
  | [p], _ => p.2
  | p :: q :: t, xq =>
    if xq < p.1 then p.2
    else if xq < q.1 then p.2 + (q.2 - p.2) * (xq - p.1) / (q.1 - p.1)
    else interpPts (q :: t) xq

/-- `loess_smooth` from `src/src/utils/loess.py`: stable sort by `x`,
deduplication of equal `x` (numpy's unstable `argsort` leaves the choice
among equal `x` unspecified; the stable choice is taken), per-point local
weighted polynomial fit, and re-injection onto the original `x` by
`np.interp`. -/
def loess_smooth (x y : List ℚ) (span : ℚ) (degree : ℕ) : List ℚ :=
  let n := x.length
  if n = 0 then y
  else if n = 1 ∨ span ≤ 0 then y
  else
    let sortedPairs := (x.zip y).mergeSort (fun a b => decide (a.1 ≤ b.1))
    let uniq := dedupByX sortedPairs
    let xs := uniq.map Prod.fst
    let ys := uniq.map Prod.snd
    let k := loessK span degree xs.length
    let fitPts := uniq.map (fun p => (p.1, localFit xs ys k degree p.1))
    x.map (interpPts fitPts)

/-- The neighborhood-size formula exactly as the specification words it:
`k = max(degree+2, floor(span·n))` clipped to `[2, n-1]`.  Stated for
comparison with the source's `loessK`. -/
def loessKSpec (span : ℚ) (degree n : ℕ) : ℕ :=
  min (max (max (degree + 2) ((⌊span * n⌋).toNat)) 2) (n - 1)

/-- C2 counterexample: at span `3/10`, degree `2`, `n = 10` deduplicated
points, the source computes `k = max(3, 3) = 3`, while the claimed formula
`max(degree+2, floor(span·n))` clipped to `[2, n-1]` gives `4`. -/
theorem C2_neighborhood_size_counterexample :
    loessK (3/10) 2 10 = 3 ∧ loessKSpec (3/10) 2 10 = 4 ∧
    loessK (3/10) 2 10 ≠ loessKSpec (3/10) 2 10 := by
  have h1 : (⌊(max 0 (min 1 (3/10 : ℚ))) * ((10:ℕ):ℚ)⌋) = 3 := by norm_num
  have h2 : (⌊((3/10 : ℚ)) * ((10:ℕ):ℚ)⌋) = 3 := by norm_num
  have e1 : loessK (3/10) 2 10 = 3 := by
    simp only [loessK, h1]
    decide
  have e2 : loessKSpec (3/10) 2 10 = 4 := by
    simp only [loessKSpec, h2]
    decide
  exact ⟨e1, e2, by rw [e1, e2]; decide⟩

/-- C2 amended: for every span in `(0,1]`, degree `d ∈ {1,2}` and `n ≥ 2`
deduplicated points, the neighborhood size used for the bandwidth is
`max(d+1, floor(span·n))` clipped to `[2, n-1]` — the additive constant is
`d+1` (`p_min+1` in the source), not the claimed `d+2`. -/
theorem C2_neighborhood_size_amended (span : ℚ) (degree n : ℕ)
    (h0 : 0 < span) (h1 : span ≤ 1) (hd : degree = 1 ∨ degree = 2)
    (hn : 2 ≤ n) :
    loessK span degree n =
      min (max (max (degree + 1) ((⌊span * (n:ℚ)⌋).toNat)) 2) (n - 1) := by
  unfold loessK
  have hclamp : max 0 (min 1 span) = span := by
    rw [min_eq_right h1]
    exact max_eq_right h0.le
  rw [hclamp]
  rcases hd with h | h <;> subst h <;> norm_num <;> omega

/-- Witness for the amended C2 statement at span `3/10`, degree 2, `n = 10`. -/
theorem C2_neighborhood_size_amended_witness :
    0 < (3/10 : ℚ) ∧ (3/10 : ℚ) ≤ 1 ∧ (2 = 1 ∨ 2 = 2) ∧ 2 ≤ 10 ∧
    loessK (3/10) 2 10 =
      min (max (max (2 + 1) ((⌊(3/10 : ℚ) * ((10:ℕ):ℚ)⌋).toNat)) 2) (10 - 1) := by
  refine ⟨by norm_num, by norm_num, by norm_num, by norm_num, ?_⟩
  exact C2_neighborhood_size_amended (3/10) 2 10 (by norm_num) (by norm_num)
    (by norm_num) (by norm_num)

/-! ### Exact-arithmetic correctness of the `lstsq` models

`np.linalg.lstsq(M, v)` returns the minimum-norm least-squares solution; for
the (symmetric positive-semidefinite, always consistent) normal equations of
the local fits it is in particular *a* solution of `M β = v`, which is all
the identity proofs below need. -/

theorem ch3_mulVec (M : Matrix (Fin 3) (Fin 3) ℚ) (u : Fin 3 → ℚ) :
    M.mulVec (M.mulVec (M.mulVec u)) =
      c2of M • M.mulVec (M.mulVec u) - c1of M • M.mulVec u + c0of M • u := by
  funext i
  fin_cases i <;>
    simp [Matrix.mulVec, Matrix.dotProduct, Matrix.mul_apply, Fin.sum_univ_three,
      c0of, c1of, c2of, Pi.smul_apply, smul_eq_mul, Pi.add_apply, Pi.sub_apply] <;> ring

theorem ch2_mulVec (M : Matrix (Fin 2) (Fin 2) ℚ) (u : Fin 2 → ℚ) :
    M.mulVec (M.mulVec u) = (M 0 0 + M 1 1) • M.mulVec u - M.det • u := by
  funext i
  fin_cases i <;>
    simp [Matrix.mulVec, Matrix.dotProduct, Matrix.mul_apply, Fin.sum_univ_two,
      Matrix.det_fin_two, Pi.smul_apply, smul_eq_mul, Pi.sub_apply] <;> ring

theorem sym_mulVec_eq_zero {n : Type} [Fintype n] (M : Matrix n n ℚ)
    (hsym : M.transpose = M) (w : n → ℚ)
    (h : M.mulVec (M.mulVec w) = 0) : M.mulVec w = 0 := by
  have hvm : ∀ x : n → ℚ, Matrix.vecMul x M = M.mulVec x := by
    intro x
    conv_lhs => rw [← hsym]
    exact Matrix.vecMul_transpose M x
  have h1 : Matrix.dotProduct (M.mulVec w) (M.mulVec w) = 0 := by
    rw [Matrix.dotProduct_mulVec, hvm, h]
    simp
  exact Matrix.dotProduct_self_eq_zero.mp h1

theorem sym3_char_zero (M : Matrix (Fin 3) (Fin 3) ℚ) (hsym : M.transpose = M)
    (h2 : c2of M = 0) (h1 : c1of M = 0) : M = 0 := by
  have hs : ∀ i j, M j i = M i j := by
    intro i j
    exact congrFun (congrFun hsym i) j
  have e01 : M 1 0 = M 0 1 := hs 0 1
  have e02 : M 2 0 = M 0 2 := hs 0 2
  have e12 : M 2 1 = M 1 2 := hs 1 2
  have key : M 0 0 ^ 2 + M 1 1 ^ 2 + M 2 2 ^ 2 +
      2 * M 0 1 ^ 2 + 2 * M 0 2 ^ 2 + 2 * M 1 2 ^ 2 = 0 := by
    have hid : M 0 0 ^ 2 + M 1 1 ^ 2 + M 2 2 ^ 2 +
        2 * M 0 1 ^ 2 + 2 * M 0 2 ^ 2 + 2 * M 1 2 ^ 2 =
        c2of M ^ 2 - 2 * c1of M := by
      simp only [c2of, c1of, e01, e02, e12]
      ring
    rw [hid, h2, h1]
    ring
  have h00 : M 0 0 = 0 := sq_eq_zero_iff.mp (le_antisymm (by linarith [sq_nonneg (M 1 1), sq_nonneg (M 2 2), sq_nonneg (M 0 1), sq_nonneg (M 0 2), sq_nonneg (M 1 2)]) (sq_nonneg _))
  have h11 : M 1 1 = 0 := sq_eq_zero_iff.mp (le_antisymm (by linarith [sq_nonneg (M 0 0), sq_nonneg (M 2 2), sq_nonneg (M 0 1), sq_nonneg (M 0 2), sq_nonneg (M 1 2)]) (sq_nonneg _))
  have h22 : M 2 2 = 0 := sq_eq_zero_iff.mp (le_antisymm (by linarith [sq_nonneg (M 0 0), sq_nonneg (M 1 1), sq_nonneg (M 0 1), sq_nonneg (M 0 2), sq_nonneg (M 1 2)]) (sq_nonneg _))
  have h01 : M 0 1 = 0 := sq_eq_zero_iff.mp (le_antisymm (by linarith [sq_nonneg (M 0 0), sq_nonneg (M 1 1), sq_nonneg (M 2 2), sq_nonneg (M 0 2), sq_nonneg (M 1 2)]) (sq_nonneg _))
  have h02 : M 0 2 = 0 := sq_eq_zero_iff.mp (le_antisymm (by linarith [sq_nonneg (M 0 0), sq_nonneg (M 1 1), sq_nonneg (M 2 2), sq_nonneg (M 0 1), sq_nonneg (M 1 2)]) (sq_nonneg _))
  have h12 : M 1 2 = 0 := sq_eq_zero_iff.mp (le_antisymm (by linarith [sq_nonneg (M 0 0), sq_nonneg (M 1 1), sq_nonneg (M 2 2), sq_nonneg (M 0 1), sq_nonneg (M 0 2)]) (sq_nonneg _))
  ext i j
  fin_cases i <;> fin_cases j <;>
    simp [h00, h11, h22, h01, h02, h12, e01, e02, e12]

theorem sym2_char_zero (M : Matrix (Fin 2) (Fin 2) ℚ) (hsym : M.transpose = M)
    (ht : M 0 0 + M 1 1 = 0) (hd : M.det = 0) : M = 0 := by
  have e01 : M 1 0 = M 0 1 := congrFun (congrFun hsym 0) 1
  have key : M 0 0 ^ 2 + M 1 1 ^ 2 + 2 * M 0 1 ^ 2 = 0 := by
    have hid : M 0 0 ^ 2 + M 1 1 ^ 2 + 2 * M 0 1 ^ 2 =
        (M 0 0 + M 1 1) ^ 2 - 2 * M.det := by
      rw [Matrix.det_fin_two]
      rw [e01]
      ring
    rw [hid, ht, hd]
    ring
  have h00 : M 0 0 = 0 := sq_eq_zero_iff.mp (le_antisymm (by linarith [sq_nonneg (M 1 1), sq_nonneg (M 0 1)]) (sq_nonneg _))
  have h11 : M 1 1 = 0 := sq_eq_zero_iff.mp (le_antisymm (by linarith [sq_nonneg (M 0 0), sq_nonneg (M 0 1)]) (sq_nonneg _))
  have h01 : M 0 1 = 0 := sq_eq_zero_iff.mp (le_antisymm (by linarith [sq_nonneg (M 0 0), sq_nonneg (M 1 1)]) (sq_nonneg _))
  ext i j
  fin_cases i <;> fin_cases j <;> simp [h00, h11, h01, e01]

theorem lstsq3_solves (M : Matrix (Fin 3) (Fin 3) ℚ) (v u : Fin 3 → ℚ)
    (hsym : M.transpose = M) (hv : v = M.mulVec u) :
    M.mulVec (lstsq3 M v) = v := by
  unfold lstsq3
  by_cases h0 : c0of M ≠ 0
  · rw [if_pos h0]
    have hch := ch3_mulVec M v
    have hlin : M.mulVec (M.mulVec (M.mulVec v)) - c2of M • M.mulVec (M.mulVec v)
        + c1of M • M.mulVec v = c0of M • v := by
      rw [hch]
      module
    calc M.mulVec ((c0of M)⁻¹ •
          (M.mulVec (M.mulVec v) - c2of M • M.mulVec v + c1of M • v))
        = (c0of M)⁻¹ • (M.mulVec (M.mulVec (M.mulVec v))
            - c2of M • M.mulVec (M.mulVec v) + c1of M • M.mulVec v) := by
          simp [Matrix.mulVec_smul, Matrix.mulVec_add, Matrix.mulVec_sub]
      _ = (c0of M)⁻¹ • (c0of M • v) := by rw [hlin]
      _ = v := by
          rw [smul_smul, inv_mul_cancel₀ h0, one_smul]
  · push_neg at h0
    rw [if_neg (by simpa using h0)]
    by_cases h1 : c1of M ≠ 0
    · rw [if_pos h1]
      subst hv
      have hch := ch3_mulVec M u
      rw [h0] at hch
      calc M.mulVec ((c1of M)⁻¹ •
            (c2of M • M.mulVec u - M.mulVec (M.mulVec u)))
          = (c1of M)⁻¹ • (c2of M • M.mulVec (M.mulVec u)
              - M.mulVec (M.mulVec (M.mulVec u))) := by
            simp [Matrix.mulVec_smul, Matrix.mulVec_sub]
        _ = (c1of M)⁻¹ • (c1of M • M.mulVec u) := by
            congr 1
            rw [hch]
            module
        _ = M.mulVec u := by
            rw [smul_smul, inv_mul_cancel₀ h1, one_smul]
    · push_neg at h1
      rw [if_neg (by simpa using h1)]
      by_cases h2 : c2of M ≠ 0
      · rw [if_pos h2]
        subst hv
        have hch := ch3_mulVec M u
        rw [h0, h1] at hch
        have hw : M.mulVec (M.mulVec (M.mulVec u - c2of M • u)) = 0 := by
          have hexp : M.mulVec (M.mulVec (M.mulVec u - c2of M • u)) =
              M.mulVec (M.mulVec (M.mulVec u))
                - c2of M • M.mulVec (M.mulVec u) := by
            simp [Matrix.mulVec_sub, Matrix.mulVec_smul]
          rw [hexp, hch]
          module
        have hzero := sym_mulVec_eq_zero M hsym _ hw
        have hsq : M.mulVec (M.mulVec u) = c2of M • M.mulVec u := by
          have hexp : M.mulVec (M.mulVec u - c2of M • u) =
              M.mulVec (M.mulVec u) - c2of M • M.mulVec u := by
            simp [Matrix.mulVec_sub, Matrix.mulVec_smul]
          rw [hexp] at hzero
          have := sub_eq_zero.mp hzero
          exact this
        calc M.mulVec ((c2of M)⁻¹ • M.mulVec u)
            = (c2of M)⁻¹ • M.mulVec (M.mulVec u) := by
              simp [Matrix.mulVec_smul]
          _ = (c2of M)⁻¹ • (c2of M • M.mulVec u) := by rw [hsq]
          _ = M.mulVec u := by
              rw [smul_smul, inv_mul_cancel₀ h2, one_smul]
      · push_neg at h2
        rw [if_neg (by simpa using h2)]
        have hM := sym3_char_zero M hsym h2 h1
        subst hv
        rw [hM]
        simp

theorem lstsq2_solves (M : Matrix (Fin 2) (Fin 2) ℚ) (v u : Fin 2 → ℚ)
    (hsym : M.transpose = M) (hv : v = M.mulVec u) :
    M.mulVec (lstsq2 M v) = v := by
  unfold lstsq2
  by_cases h0 : M.det ≠ 0
  · rw [if_pos h0]
    have hch := ch2_mulVec M v
    calc M.mulVec ((M.det)⁻¹ • ((M 0 0 + M 1 1) • v - M.mulVec v))
        = (M.det)⁻¹ • ((M 0 0 + M 1 1) • M.mulVec v
            - M.mulVec (M.mulVec v)) := by
          simp [Matrix.mulVec_smul, Matrix.mulVec_sub]
      _ = (M.det)⁻¹ • (M.det • v) := by
          rw [hch]
          congr 1
          module
      _ = v := by rw [smul_smul, inv_mul_cancel₀ h0, one_smul]
  · push_neg at h0
    rw [if_neg (by simpa using h0)]
    by_cases h1 : M 0 0 + M 1 1 ≠ 0
    · rw [if_pos h1]
      subst hv
      have hch := ch2_mulVec M u
      rw [h0] at hch
      calc M.mulVec ((M 0 0 + M 1 1)⁻¹ • M.mulVec u)
          = (M 0 0 + M 1 1)⁻¹ • M.mulVec (M.mulVec u) := by
            simp [Matrix.mulVec_smul]
        _ = (M 0 0 + M 1 1)⁻¹ • ((M 0 0 + M 1 1) • M.mulVec u) := by
            rw [hch]
            congr 1
            module
        _ = M.mulVec u := by rw [smul_smul, inv_mul_cancel₀ h1, one_smul]
    · push_neg at h1
      rw [if_neg (by simpa using h1)]
      have hM := sym2_char_zero M hsym h1 h0
      subst hv
      rw [hM]
      simp

/-! ### The normal equations of the local fits are symmetric and consistent -/

theorem list_sum_nonneg_eq_zero {l : List ℚ} (hnn : ∀ a ∈ l, 0 ≤ a)
    (hsum : l.sum = 0) : ∀ a ∈ l, a = 0 := by
  induction l with
  | nil => intro a ha; simp at ha
  | cons b t ih =>
    have hb : 0 ≤ b := hnn b (List.mem_cons_self _ _)
    have ht : 0 ≤ t.sum := List.sum_nonneg (fun a ha => hnn a (List.mem_cons_of_mem _ ha))
    rw [List.sum_cons] at hsum
    have hb0 : b = 0 := by linarith
    have ht0 : t.sum = 0 := by linarith
    intro a ha
    rcases List.mem_cons.mp ha with h | h
    · rw [h, hb0]
    · exact ih (fun a ha => hnn a (List.mem_cons_of_mem _ ha)) ht0 a h

theorem momentSum_cons (p : LPt) (l : List LPt) (j : ℕ) :
    momentSum (p :: l) j = p.w * p.z ^ j + momentSum l j := by
  simp [momentSum]

theorem rhsSum_cons (p : LPt) (l : List LPt) (j : ℕ) :
    rhsSum (p :: l) j = p.w * p.z ^ j * p.y + rhsSum l j := by
  simp [rhsSum]

theorem qf3_closed (pts : List LPt) (q : Fin 3 → ℚ) :
    Matrix.dotProduct q ((normalMat3 pts).mulVec q) =
      q 0 ^ 2 * momentSum pts 0 + 2 * q 0 * q 1 * momentSum pts 1 +
      (q 1 ^ 2 + 2 * q 0 * q 2) * momentSum pts 2 +
      2 * q 1 * q 2 * momentSum pts 3 + q 2 ^ 2 * momentSum pts 4 := by
  simp [normalMat3, Matrix.mulVec, Matrix.dotProduct, Fin.sum_univ_three]
  ring

theorem mapsum3 (pts : List LPt) (q : Fin 3 → ℚ) :
    (pts.map (fun p => p.w * (q 0 + q 1 * p.z + q 2 * p.z ^ 2) ^ 2)).sum =
      q 0 ^ 2 * momentSum pts 0 + 2 * q 0 * q 1 * momentSum pts 1 +
      (q 1 ^ 2 + 2 * q 0 * q 2) * momentSum pts 2 +
      2 * q 1 * q 2 * momentSum pts 3 + q 2 ^ 2 * momentSum pts 4 := by
  induction pts with
  | nil => simp [momentSum]
  | cons p rest ih =>
    simp only [List.map_cons, List.sum_cons, momentSum_cons, ih]
    ring

theorem qf2_closed (pts : List LPt) (q : Fin 2 → ℚ) :
    Matrix.dotProduct q ((normalMat2 pts).mulVec q) =
      q 0 ^ 2 * momentSum pts 0 + 2 * q 0 * q 1 * momentSum pts 1 +
      q 1 ^ 2 * momentSum pts 2 := by
  simp [normalMat2, Matrix.mulVec, Matrix.dotProduct, Fin.sum_univ_two]
  ring

theorem mapsum2 (pts : List LPt) (q : Fin 2 → ℚ) :
    (pts.map (fun p => p.w * (q 0 + q 1 * p.z) ^ 2)).sum =
      q 0 ^ 2 * momentSum pts 0 + 2 * q 0 * q 1 * momentSum pts 1 +
      q 1 ^ 2 * momentSum pts 2 := by
  induction pts with
  | nil => simp [momentSum]
  | cons p rest ih =>
    simp only [List.map_cons, List.sum_cons, momentSum_cons, ih]
    ring

theorem normalMat3_sym (pts : List LPt) :
    (normalMat3 pts).transpose = normalMat3 pts := by
  ext i j
  fin_cases i <;> fin_cases j <;> simp [normalMat3]

theorem normalMat2_sym (pts : List LPt) :
    (normalMat2 pts).transpose = normalMat2 pts := by
  ext i j
  fin_cases i <;> fin_cases j <;> simp [normalMat2]

/-- Any null vector of the 3×3 normal matrix vanishes, weighted, at every
sample; at a sample with `z = 0` and positive weight this forces the
intercept component to be zero. -/
theorem normalMat3_null_first (pts : List LPt) (hw : ∀ p ∈ pts, 0 ≤ p.w)
    (p0 : LPt) (hp0 : p0 ∈ pts) (hz : p0.z = 0) (hw0 : 0 < p0.w)
    (q : Fin 3 → ℚ) (hq : (normalMat3 pts).mulVec q = 0) : q 0 = 0 := by
  have hqf : (pts.map (fun p => p.w * (q 0 + q 1 * p.z + q 2 * p.z ^ 2) ^ 2)).sum
      = 0 := by
    rw [mapsum3, ← qf3_closed, hq]
    simp
  have hall := list_sum_nonneg_eq_zero
    (l := pts.map (fun p => p.w * (q 0 + q 1 * p.z + q 2 * p.z ^ 2) ^ 2))
    (by
      intro a ha
      obtain ⟨p, hp, rfl⟩ := List.mem_map.mp ha
      exact mul_nonneg (hw p hp) (sq_nonneg _)) hqf
  have h0 := hall _ (List.mem_map_of_mem _ hp0)
  rw [hz] at h0
  simp only [mul_zero, zero_pow, add_zero] at h0
  have hsq : (q 0) ^ 2 = 0 := by
    rcases mul_eq_zero.mp h0 with h | h
    · exact absurd h (ne_of_gt hw0)
    · simpa using h
  exact sq_eq_zero_iff.mp hsq

theorem normalMat2_null_first (pts : List LPt) (hw : ∀ p ∈ pts, 0 ≤ p.w)
    (p0 : LPt) (hp0 : p0 ∈ pts) (hz : p0.z = 0) (hw0 : 0 < p0.w)
    (q : Fin 2 → ℚ) (hq : (normalMat2 pts).mulVec q = 0) : q 0 = 0 := by
  have hqf : (pts.map (fun p => p.w * (q 0 + q 1 * p.z) ^ 2)).sum = 0 := by
    rw [mapsum2, ← qf2_closed, hq]
    simp
  have hall := list_sum_nonneg_eq_zero
    (l := pts.map (fun p => p.w * (q 0 + q 1 * p.z) ^ 2))
    (by
      intro a ha
      obtain ⟨p, hp, rfl⟩ := List.mem_map.mp ha
      exact mul_nonneg (hw p hp) (sq_nonneg _)) hqf
  have h0 := hall _ (List.mem_map_of_mem _ hp0)
  rw [hz] at h0
  simp only [mul_zero, add_zero] at h0
  have hsq : (q 0) ^ 2 = 0 := by
    rcases mul_eq_zero.mp h0 with h | h
    · exact absurd h (ne_of_gt hw0)
    · simpa using h
  exact sq_eq_zero_iff.mp hsq

theorem rhsSum_linear (pts : List LPt) (u0 u1 : ℚ)
    (hy : ∀ p ∈ pts, p.y = u0 + u1 * p.z) (j : ℕ) :
    rhsSum pts j = u0 * momentSum pts j + u1 * momentSum pts (j + 1) := by
  induction pts with
  | nil => simp [rhsSum, momentSum]
  | cons p rest ih =>
    have hp := hy p (List.mem_cons_self _ _)
    have hrest := ih (fun p hp => hy p (List.mem_cons_of_mem _ hp))
    rw [rhsSum_cons, momentSum_cons, momentSum_cons, hrest, hp]
    ring

theorem normalVec3_consistent (pts : List LPt) (u0 u1 : ℚ)
    (hy : ∀ p ∈ pts, p.y = u0 + u1 * p.z) :
    normalVec3 pts = (normalMat3 pts).mulVec ![u0, u1, 0] := by
  funext j
  fin_cases j <;>
    simp [normalVec3, normalMat3, Matrix.mulVec, Matrix.dotProduct,
      Fin.sum_univ_three, rhsSum_linear pts u0 u1 hy] <;> ring

theorem normalVec2_consistent (pts : List LPt) (u0 u1 : ℚ)
    (hy : ∀ p ∈ pts, p.y = u0 + u1 * p.z) :
    normalVec2 pts = (normalMat2 pts).mulVec ![u0, u1] := by
  funext j
  fin_cases j <;>
    simp [normalVec2, normalMat2, Matrix.mulVec, Matrix.dotProduct,
      Fin.sum_univ_two, rhsSum_linear pts u0 u1 hy] <;> ring

theorem tricube_nonneg (u : ℚ) : 0 ≤ tricube u := by
  unfold tricube
  have h0 : (0:ℚ) ≤ min (max |u| 0) 1 := le_min (le_max_right _ _) zero_le_one
  have h1 : min (max |u| 0) 1 ≤ 1 := min_le_right _ _
  have hc : (min (max |u| 0) 1) ^ 3 ≤ 1 := pow_le_one₀ h0 h1
  have : (0:ℚ) ≤ 1 - (min (max |u| 0) 1) ^ 3 := by linarith
  positivity

theorem tricube_zero : tricube 0 = 1 := by norm_num [tricube]

theorem kthSmallest_mem (l : List ℚ) (kk : ℕ) (hk : kk - 1 < l.length) :
    kthSmallest l kk ∈ l := by
  unfold kthSmallest
  have hperm := List.mergeSort_perm l (fun a b => decide (a ≤ b))
  have hlen : (l.mergeSort (fun a b => decide (a ≤ b))).length = l.length :=
    hperm.length_eq
  have hidx : kk - 1 < (l.mergeSort (fun a b => decide (a ≤ b))).length := by
    rw [hlen]; exact hk
  rw [List.getD_eq_getElem _ _ hidx]
  exact hperm.subset (List.getElem_mem hidx)

theorem loessDk_pos (xs : List ℚ) (k : ℕ) (xi : ℚ) : 0 < loessDk xs k xi := by
  unfold loessDk
  by_cases h : (nonzeroDists xs xi).length = 0
  · rw [if_pos h]; norm_num
  · rw [if_neg h]
    have hk : min k (nonzeroDists xs xi).length - 1 < (nonzeroDists xs xi).length := by
      omega
    have hmem := kthSmallest_mem (nonzeroDists xs xi) (min k (nonzeroDists xs xi).length) hk
    have hpos : 0 < kthSmallest (nonzeroDists xs xi) (min k (nonzeroDists xs xi).length) := by
      have hf := (List.mem_filter.mp hmem).2
      simpa using hf
    rw [if_neg (not_le.mpr hpos)]
    exact hpos

theorem exists_zip_pair {xs ys : List ℚ} (hlen : ys.length = xs.length)
    {xi : ℚ} (hxi : xi ∈ xs) : ∃ yv, (xi, yv) ∈ xs.zip ys := by
  obtain ⟨i, hi, rfl⟩ := List.getElem_of_mem hxi
  have hiy : i < ys.length := by omega
  refine ⟨ys[i], ?_⟩
  have hz : i < (xs.zip ys).length := by
    rw [List.length_zip]; omega
  have hget : (xs.zip ys)[i] = (xs[i], ys[i]) := List.getElem_zip ..
  rw [← hget]
  exact List.getElem_mem hz

/-- The local fit reproduces affine data exactly: if every `(x, y)` sample
pair satisfies `y = a·x + b`, the fitted intercept at any sample abscissa is
`a·xi + b` — independent of the neighborhood size `k` and for either degree
of the local polynomial. -/
theorem localFit_linear (xs ys : List ℚ) (k degree : ℕ) (xi a b : ℚ)
    (hxi : xi ∈ xs) (hlen : ys.length = xs.length)
    (hy : ∀ p ∈ xs.zip ys, p.2 = a * p.1 + b) :
    localFit xs ys k degree xi = a * xi + b := by
  have hdk : 0 < loessDk xs k xi := loessDk_pos xs k xi
  set dk := loessDk xs k xi with hdkdef
  set pts := localPts xs ys k xi with hptsdef
  have hw : ∀ p ∈ pts, 0 ≤ p.w := by
    intro p hp
    rw [hptsdef] at hp
    unfold localPts at hp
    obtain ⟨pr, hpr, rfl⟩ := List.mem_map.mp (List.mem_filter.mp hp).1
    exact tricube_nonneg _
  obtain ⟨yv, hyv⟩ := exists_zip_pair hlen hxi
  have hp0mem : (⟨(xi - xi) / dk, yv, tricube (|xi - xi| / dk)⟩ : LPt) ∈ pts := by
    rw [hptsdef]
    unfold localPts
    apply List.mem_filter.mpr
    refine ⟨List.mem_map_of_mem _ hyv, ?_⟩
    simp [sub_self, abs_zero, tricube_zero]
  have hz0 : (⟨(xi - xi) / dk, yv, tricube (|xi - xi| / dk)⟩ : LPt).z = 0 := by
    simp
  have hw0 : (0:ℚ) < (⟨(xi - xi) / dk, yv, tricube (|xi - xi| / dk)⟩ : LPt).w := by
    simp [sub_self, abs_zero, tricube_zero]
  have hling : ∀ p ∈ pts, p.y = (a * xi + b) + (a * dk) * p.z := by
    intro p hp
    rw [hptsdef] at hp
    unfold localPts at hp
    obtain ⟨pr, hpr, rfl⟩ := List.mem_map.mp (List.mem_filter.mp hp).1
    have hval := hy pr hpr
    dsimp only
    rw [hval]
    field_simp
    ring
  unfold localFit
  rw [← hptsdef]
  by_cases hdeg : 2 ≤ degree
  · rw [if_pos hdeg]
    have hv := normalVec3_consistent pts (a * xi + b) (a * dk) hling
    have hsol := lstsq3_solves (normalMat3 pts) (normalVec3 pts)
      ![a * xi + b, a * dk, 0] (normalMat3_sym pts) hv
    have hMq : (normalMat3 pts).mulVec
        (lstsq3 (normalMat3 pts) (normalVec3 pts) - ![a * xi + b, a * dk, 0]) = 0 := by
      rw [Matrix.mulVec_sub, hsol, hv]
      simp
    have hq0 := normalMat3_null_first pts hw _ hp0mem hz0 hw0 _ hMq
    have hfin : lstsq3 (normalMat3 pts) (normalVec3 pts) 0 - (a * xi + b) = 0 := by
      simpa using hq0
    linarith
  · rw [if_neg hdeg]
    have hv := normalVec2_consistent pts (a * xi + b) (a * dk) hling
    have hsol := lstsq2_solves (normalMat2 pts) (normalVec2 pts)
      ![a * xi + b, a * dk] (normalMat2_sym pts) hv
    have hMq : (normalMat2 pts).mulVec
        (lstsq2 (normalMat2 pts) (normalVec2 pts) - ![a * xi + b, a * dk]) = 0 := by
      rw [Matrix.mulVec_sub, hsol, hv]
      simp
    have hq0 := normalMat2_null_first pts hw _ hp0mem hz0 hw0 _ hMq
    have hfin : lstsq2 (normalMat2 pts) (normalVec2 pts) 0 - (a * xi + b) = 0 := by
      simpa using hq0
    linarith

/-! ### Sorting, deduplication, interpolation -/

theorem sorted_fst_mergeSort (l : List (ℚ × ℚ)) :
    (l.mergeSort (fun a b => decide (a.1 ≤ b.1))).Pairwise
      (fun a b : ℚ × ℚ => a.1 ≤ b.1) := by
  have h := @List.sorted_mergeSort (ℚ × ℚ) (fun a b : ℚ × ℚ => decide (a.1 ≤ b.1))
    (by
      intro a b c hab hbc
      simp only [decide_eq_true_eq] at *
      exact le_trans hab hbc)
    (by
      intro a b
      simp only [Bool.or_eq_true, decide_eq_true_eq]
      exact le_total a.1 b.1)
    l
  exact h.imp (by intro a b hab; simpa using hab)

theorem dedupByX_subset : ∀ l, ∀ p ∈ dedupByX l, p ∈ l := by
  intro l
  induction l using dedupByX.induct with
  | case1 => simp [dedupByX]
  | case2 p => simp [dedupByX]
  | case3 p q t heq ih =>
    intro r hr
    rw [dedupByX, if_pos heq] at hr
    have hm := ih r hr
    rcases List.mem_cons.mp hm with h | h
    · simp [h]
    · simp [List.mem_cons_of_mem, h]
  | case4 p q t hne ih =>
    intro r hr
    rw [dedupByX, if_neg hne] at hr
    rcases List.mem_cons.mp hr with h | h
    · simp [h]
    · have hm := ih r h
      simp [List.mem_cons_of_mem, hm]

theorem dedupByX_fst_cover : ∀ l, ∀ r ∈ l, ∃ q ∈ dedupByX l, q.1 = r.1 := by
  intro l
  induction l using dedupByX.induct with
  | case1 => simp
  | case2 p =>
    intro r hr
    rcases List.mem_cons.mp hr with h | h
    · exact ⟨p, by simp [dedupByX], by rw [h]⟩
    · simp at h
  | case3 p q t heq ih =>
    intro r hr
    rw [dedupByX, if_pos heq]
    rcases List.mem_cons.mp hr with h | h
    · exact ih p (List.mem_cons_self _ _) |>.imp (fun q' hq' => ⟨hq'.1, by rw [hq'.2, h]⟩)
    · rcases List.mem_cons.mp h with h2 | h2
      · obtain ⟨q', hq', he⟩ := ih p (List.mem_cons_self _ _)
        exact ⟨q', hq', by rw [he, heq, h2]⟩
      · exact ih r (List.mem_cons_of_mem _ h2)
  | case4 p q t hne ih =>
    intro r hr
    rw [dedupByX, if_neg hne]
    rcases List.mem_cons.mp hr with h | h
    · exact ⟨p, List.mem_cons_self _ _, by rw [h]⟩
    · obtain ⟨q', hq', he⟩ := ih r h
      exact ⟨q', List.mem_cons_of_mem _ hq', he⟩

theorem dedupByX_strict : ∀ l, l.Pairwise (fun a b : ℚ × ℚ => a.1 ≤ b.1) →
    (dedupByX l).Pairwise (fun a b : ℚ × ℚ => a.1 < b.1) := by
  intro l
  induction l using dedupByX.induct with
  | case1 => simp [dedupByX]
  | case2 p => simp [dedupByX]
  | case3 p q t heq ih =>
    intro hpw
    rw [dedupByX, if_pos heq]
    apply ih
    rw [List.pairwise_cons] at hpw ⊢
    obtain ⟨hp, hqt⟩ := hpw
    rw [List.pairwise_cons] at hqt
    exact ⟨fun r hr => hp r (List.mem_cons_of_mem _ hr), hqt.2⟩
  | case4 p q t hne ih =>
    intro hpw
    rw [dedupByX, if_neg hne]
    rw [List.pairwise_cons] at hpw
    obtain ⟨hp, hqt⟩ := hpw
    have hpq : p.1 < q.1 :=
      lt_of_le_of_ne (hp q (List.mem_cons_self _ _)) (by simpa using hne)
    rw [List.pairwise_cons]
    refine ⟨?_, ih hqt⟩
    intro r hr
    have hrm := dedupByX_subset _ r hr
    rcases List.mem_cons.mp hrm with h | h
    · rw [h]; exact hpq
    · have hq := List.pairwise_cons.mp hqt
      exact lt_of_lt_of_le hpq (hq.1 r h)

theorem interpPts_node : ∀ (l : List (ℚ × ℚ)),
    l.Pairwise (fun a b : ℚ × ℚ => a.1 < b.1) →
    ∀ p ∈ l, interpPts l p.1 = p.2 := by
  intro l
  induction l with
  | nil => intro _ p hp; simp at hp
  | cons p' t ih =>
    intro hpw p hp
    cases t with
    | nil =>
      rcases List.mem_cons.mp hp with h | h
      · rw [h]; rfl
      · simp at h
    | cons q' u =>
      have hpq : p'.1 < q'.1 := (List.pairwise_cons.mp hpw).1 q' (List.mem_cons_self _ _)
      rcases List.mem_cons.mp hp with h | h
      · subst h
        show interpPts (p :: q' :: u) p.1 = p.2
        rw [interpPts]
        rw [if_neg (lt_irrefl p.1), if_pos hpq]
        rw [sub_self]
        ring
      · have hq'le : q'.1 ≤ p.1 := by
          rcases List.mem_cons.mp h with h2 | h2
          · rw [h2]
          · have hq := (List.pairwise_cons.mp (List.pairwise_cons.mp hpw).2).1
            exact le_of_lt (hq p h2)
        have hp'lt : p'.1 < p.1 := lt_of_lt_of_le hpq hq'le
        show interpPts (p' :: q' :: u) p.1 = p.2
        rw [interpPts]
        rw [if_neg (not_lt.mpr (le_of_lt hp'lt)), if_neg (not_lt.mpr hq'le)]
        exact ih (List.pairwise_cons.mp hpw).2 p h

theorem zip_map_fst_snd (l : List (ℚ × ℚ)) :
    (l.map Prod.fst).zip (l.map Prod.snd) = l := by
  induction l with
  | nil => simp
  | cons p t ih => simp [ih]

/-- The smoother reproduces affine data exactly, for every span, every
degree, and every neighborhood size. -/
theorem loess_affine (x y : List ℚ) (span : ℚ) (degree : ℕ) (a b : ℚ)
    (hlen : y.length = x.length) (hy : ∀ p ∈ x.zip y, p.2 = a * p.1 + b) :
    loess_smooth x y span degree = y := by
  unfold loess_smooth
  by_cases hn0 : x.length = 0
  · rw [if_pos hn0]
  · rw [if_neg hn0]
    by_cases hn1 : x.length = 1 ∨ span ≤ 0
    · rw [if_pos hn1]
    · rw [if_neg hn1]
      set sp := (x.zip y).mergeSort (fun a b => decide (a.1 ≤ b.1)) with hspdef
      set uq := dedupByX sp with huqdef
      set xs := uq.map Prod.fst with hxsdef
      set ys := uq.map Prod.snd with hysdef
      set k := loessK span degree xs.length with hkdef
      have hperm := List.mergeSort_perm (x.zip y) (fun a b => decide (a.1 ≤ b.1))
      have hsorted : sp.Pairwise (fun a b : ℚ × ℚ => a.1 ≤ b.1) :=
        sorted_fst_mergeSort _
      have hstrict : uq.Pairwise (fun a b : ℚ × ℚ => a.1 < b.1) :=
        dedupByX_strict _ hsorted
      have huq_sub : ∀ p ∈ uq, p ∈ x.zip y := by
        intro p hp
        exact hperm.subset (dedupByX_subset _ p hp)
      have hzipuq : xs.zip ys = uq := zip_map_fst_snd uq
      have hy_xs : ∀ p ∈ xs.zip ys, p.2 = a * p.1 + b := by
        rw [hzipuq]
        intro p hp
        exact hy p (huq_sub p hp)
      have hlen_xs : ys.length = xs.length := by
        rw [hxsdef, hysdef]
        simp
      have hfit : ∀ p ∈ uq, localFit xs ys k degree p.1 = a * p.1 + b := by
        intro p hp
        apply localFit_linear xs ys k degree p.1 a b ?_ hlen_xs hy_xs
        rw [hxsdef]
        exact List.mem_map_of_mem _ hp
      have hfitpw : (uq.map (fun p => (p.1, localFit xs ys k degree p.1))).Pairwise
          (fun a b : ℚ × ℚ => a.1 < b.1) := by
        rw [List.pairwise_map]
        exact hstrict.imp (fun h => h)
      apply List.ext_getElem
      · simp [hlen]
      · intro i hi hiy
        have hix : i < x.length := by simpa using hi
        rw [List.getElem_map]
        have hizip : i < (x.zip y).length := by
          rw [List.length_zip]
          omega
        have hpr : (x[i], y[i]) ∈ x.zip y := by
          have hg : (x.zip y)[i] = (x[i], y[i]) := List.getElem_zip ..
          rw [← hg]
          exact List.getElem_mem hizip
        have hyi : y[i] = a * x[i] + b := hy (x[i], y[i]) hpr
        obtain ⟨q, hq, hqe⟩ := dedupByX_fst_cover sp (x[i], y[i])
          (hperm.mem_iff.mpr hpr)
        have hnode : (q.1, localFit xs ys k degree q.1) ∈
            uq.map (fun p => (p.1, localFit xs ys k degree p.1)) :=
          List.mem_map_of_mem _ hq
        have hval := interpPts_node _ hfitpw _ hnode
        simp only at hval
        have hq1 : q.1 = x[i] := hqe
        rw [← hq1, hval, hfit q hq, hq1, hyi]

/-- C9: the Smoother is the identity on constant data (any valid span, any
degree) and on exactly-linear data with the default quadratic local degree,
in exact arithmetic. -/
theorem C9_smoother_identity :
    (∀ (x y : List ℚ) (span : ℚ) (degree : ℕ) (c : ℚ),
        y.length = x.length → (∀ v ∈ y, v = c) →
        loess_smooth x y span degree = y) ∧
    (∀ (x y : List ℚ) (span : ℚ) (a b : ℚ),
        y.length = x.length → (∀ p ∈ x.zip y, p.2 = a * p.1 + b) →
        loess_smooth x y span 2 = y) := by
  constructor
  · intro x y span degree c hlen hc
    apply loess_affine x y span degree 0 c hlen
    intro p hp
    have hmem : p.2 ∈ y := (List.of_mem_zip hp).2
    rw [hc p.2 hmem]
    ring
  · intro x y span a b hlen hy
    exact loess_affine x y span 2 a b hlen hy

/-- Witness for C9: a concrete constant curve and a concrete linear curve
are returned unchanged. -/
theorem C9_smoother_identity_witness :
    (([5, 5, 5] : List ℚ).length = ([0, 1, 2] : List ℚ).length ∧
      loess_smooth [0, 1, 2] [5, 5, 5] (1/2) 2 = [5, 5, 5]) ∧
    (([1, 3, 5] : List ℚ).length = ([0, 1, 2] : List ℚ).length ∧
      loess_smooth [0, 1, 2] [1, 3, 5] (1/2) 2 = [1, 3, 5]) := by
  constructor
  · refine ⟨by decide, ?_⟩
    exact C9_smoother_identity.1 [0, 1, 2] [5, 5, 5] (1/2) 2 5 (by decide)
      (by decide)
  · refine ⟨by decide, ?_⟩
    exact C9_smoother_identity.2 [0, 1, 2] [1, 3, 5] (1/2) 2 1 (by decide)
      (by norm_num)

/-! ## MetricsEngine: `_metrics_from_curve` in `src/src/ui/napari_main_window.py`

Metric values are `Option ℚ`; `none` models the `float('nan')` sentinel (and
the absent `MaxDiff` key of the two early returns).  Every `try/except`
block of the source catches all exceptions and substitutes `nan`, so the
embedding is a total function; the exception paths (index errors from
mismatched lengths) are the `none` branches below.  numpy length-1
broadcasting of mismatched arrays is not modelled (treated as the exception
path). -/

structure MetricSet where
  auc : Option ℚ
  mtt : Option ℚ
  peak : Option ℚ
  ttp : Option ℚ
  slope : Option ℚ
  maxdiff : Option ℚ
deriving DecidableEq

/-- `np.trapz(y, x=t)`: `Σ (t[i+1]-t[i])·(y[i+1]+y[i])/2`. -/
def trapz (y t : List ℚ) : ℚ :=
  (List.zipWith (fun dt sy => dt * sy / 2) (diffList t)
    (List.zipWith (fun a b => a + b) y.tail y)).sum

/-- `np.clip(y, 0, None)`. -/
def yposOf (y : List ℚ) : List ℚ := y.map (fun v => max v 0)

/-- First polynomial coefficient (the slope) of `np.polyfit(ts, ys, 1)` in
exact arithmetic: the unique least-squares slope when the abscissae are not
all equal, and the minimum-norm least-squares solution when they are. -/
def polyfitSlope (ts ys : List ℚ) : ℚ :=
  let n : ℚ := ts.length
  let st := ts.sum
  let sy := ys.sum
  let stt := (ts.map (fun v => v * v)).sum
  let sty := (List.zipWith (fun a b => a * b) ts ys).sum
  if n * stt - st * st ≠ 0 then (n * sty - st * sy) / (n * stt - st * st)
  else ((sy / n) * (st / n)) / ((st / n) ^ 2 + 1)

/-- `AUC`: trapezoidal integral of the clamped curve; `none` when the
`np.trapz` call raises (length mismatch). -/
def aucOf (t y : List ℚ) : Option ℚ :=
  if (yposOf y).length = t.length then some (trapz (yposOf y) t) else none

/-- `MTT`: first moment over area, defined only for a finite positive AUC. -/
def mttOf (t y : List ℚ) : Option ℚ :=
  match aucOf t y with
  | none => none
  | some a =>
    if 0 < a then
      some (trapz (List.zipWith (fun u v => u * v) t (yposOf y)) t / a)
    else none

/-- `Peak`: `y[argmax(y)]`; `none` when `t[i_max]` would raise (the source's
single `try` block then discards both values). -/
def peakOf (t y : List ℚ) : Option ℚ :=
  if argmaxIdx y < t.length then some (y.getD (argmaxIdx y) 0) else none

/-- `TTP`: `t[argmax(y)]`. -/
def ttpOf (t y : List ℚ) : Option ℚ :=
  if argmaxIdx y < t.length then some (t.getD (argmaxIdx y) 0) else none

/-- `Slope_10_90`: linear-fit slope over the samples between 10% and 90% of
a positive peak; `none` when the peak is not positive, fewer than two
samples qualify, or the fancy indexing `t[idx]` would raise. -/
def slopeOf (t y : List ℚ) : Option ℚ :=
  match peakOf t y with
  | none => none
  | some p =>
    if 0 < p then
      if 2 ≤ (tenNinety p y).length then
        if (tenNinety p y).all (fun j => decide (j < t.length)) then
          some (polyfitSlope ((tenNinety p y).map (fun j => t.getD j 0))
            ((tenNinety p y).map (fun j => y.getD j 0)))
        else none
      else none
    else none
where
  /-- `np.where((y >= 0.1·p) & (y <= 0.9·p))[0]`. -/
  tenNinety (p : ℚ) (y : List ℚ) : List ℕ :=
    (List.range y.length).filter
      (fun j => decide (p / 10 ≤ y.getD j 0) && decide (y.getD j 0 ≤ 9 * p / 10))

/-- `MaxDiff`: maximum absolute discrete derivative, zero time steps
replaced by `1e-9`. -/
def maxdiffOf (t y : List ℚ) : Option ℚ :=
  if 2 ≤ t.length ∧ y.length = t.length then
    some (maxQ (List.zipWith
      (fun dy dt => |dy / (if dt = 0 then (1/1000000000 : ℚ) else dt)|)
      (diffList y) (diffList t)))
  else none

/-- `_metrics_from_curve` (napari_main_window.py lines 2193-2247). -/
def metrics_from_curve (t y : List ℚ) : MetricSet :=
  if t.length = 0 ∨ y.length = 0 then ⟨none, none, none, none, none, none⟩
  else ⟨aucOf t y, mttOf t y, peakOf t y, ttpOf t y, slopeOf t y, maxdiffOf t y⟩

/-- C3 counterexample: on the curve `t = [0,1]`, `y = [-5,1]` the deepest
negative excursion `-5` exceeds the maximum `1` in magnitude, yet the source
reports `Peak = 1` (plain `np.argmax`, not max-magnitude) and its time
`TTP = 1`, not the claimed signed max-magnitude value `-5` at time `0`. -/
theorem C3_peak_counterexample :
    (metrics_from_curve [0, 1] [-5, 1]).peak = some 1 ∧
    (metrics_from_curve [0, 1] [-5, 1]).ttp = some 1 ∧
    (∀ v ∈ ([-5, 1] : List ℚ), |v| ≤ |(-5 : ℚ)|) ∧ ((1 : ℚ) ≠ -5) := by
  refine ⟨by decide, by decide, by decide, by norm_num⟩

/-- C3 amended: for every non-empty curve (with matching lengths), the
reported Peak is the *plain maximum* of `y` — not the signed max-magnitude
value — attained at the first maximizing index, and TTP is the time of that
same sample. -/
theorem C3_peak_ttp_amended (t y : List ℚ) (hy : y ≠ [])
    (hlen : t.length = y.length) :
    ∃ i, i < y.length ∧
      (metrics_from_curve t y).peak = some (y.getD i 0) ∧
      (metrics_from_curve t y).ttp = some (t.getD i 0) ∧
      (∀ j, j < y.length → y.getD j 0 ≤ y.getD i 0) ∧
      (∀ j, j < i → y.getD j 0 < y.getD i 0) := by
  have hyl : y.length ≠ 0 := by
    simpa using hy
  have hte : ¬(t.length = 0 ∨ y.length = 0) := by omega
  have hidx : argmaxIdx y < t.length := by
    rw [hlen]
    exact argmaxIdx_lt_length hy
  refine ⟨argmaxIdx y, argmaxIdx_lt_length hy, ?_, ?_, ?_, ?_⟩
  · simp only [metrics_from_curve, if_neg hte]
    simp only [peakOf, if_pos hidx]
  · simp only [metrics_from_curve, if_neg hte]
    simp only [ttpOf, if_pos hidx]
  · intro j hj
    exact argmaxIdx_ge j hj
  · intro j hj
    exact argmaxIdx_first j hj

/-- Witness for the amended C3 statement on `t = [0,1]`, `y = [-5,1]`. -/
theorem C3_peak_ttp_amended_witness :
    ([-5, 1] : List ℚ) ≠ [] ∧ ([0, 1] : List ℚ).length = ([-5, 1] : List ℚ).length ∧
    ∃ i, i < ([-5, 1] : List ℚ).length ∧
      (metrics_from_curve [0, 1] [-5, 1]).peak = some (([-5, 1] : List ℚ).getD i 0) ∧
      (metrics_from_curve [0, 1] [-5, 1]).ttp = some (([0, 1] : List ℚ).getD i 0) ∧
      (∀ j, j < ([-5, 1] : List ℚ).length →
        ([-5, 1] : List ℚ).getD j 0 ≤ ([-5, 1] : List ℚ).getD i 0) ∧
      (∀ j, j < i → ([-5, 1] : List ℚ).getD j 0 < ([-5, 1] : List ℚ).getD i 0) := by
  exact ⟨by decide, by decide,
    C3_peak_ttp_amended [0, 1] [-5, 1] (by decide) (by decide)⟩

/-- C8: the MetricsEngine is a total function of its inputs (every
`try/except` of the source substitutes the NaN sentinel), every metric of
the returned set is the NaN sentinel on empty input, and each metric that
cannot be derived (non-positive area for MTT, non-positive peak or a missing
peak for the rise slope, fewer than two time samples for the maximum
derivative) is the NaN sentinel as well. -/
theorem C8_metrics_degenerate :
    (∀ t y : List ℚ, t = [] ∨ y = [] →
      metrics_from_curve t y = ⟨none, none, none, none, none, none⟩) ∧
    (∀ t y : List ℚ, (metrics_from_curve t y).auc = none →
      (metrics_from_curve t y).mtt = none) ∧
    (∀ (t y : List ℚ) (a : ℚ), (metrics_from_curve t y).auc = some a → a ≤ 0 →
      (metrics_from_curve t y).mtt = none) ∧
    (∀ (t y : List ℚ) (p : ℚ), (metrics_from_curve t y).peak = some p → p ≤ 0 →
      (metrics_from_curve t y).slope = none) ∧
    (∀ t y : List ℚ, (metrics_from_curve t y).peak = none →
      (metrics_from_curve t y).slope = none) ∧
    (∀ t y : List ℚ, t.length < 2 → (metrics_from_curve t y).maxdiff = none) := by
  refine ⟨?_, ?_, ?_, ?_, ?_, ?_⟩
  · intro t y h
    rcases h with h | h <;> subst h <;> simp [metrics_from_curve]
  · intro t y h
    by_cases he : t.length = 0 ∨ y.length = 0
    · unfold metrics_from_curve
      rw [if_pos he]
    · unfold metrics_from_curve at h ⊢
      rw [if_neg he] at h ⊢
      simp only [] at h ⊢
      simp [mttOf, h]
  · intro t y a h ha
    by_cases he : t.length = 0 ∨ y.length = 0
    · unfold metrics_from_curve
      rw [if_pos he]
    · unfold metrics_from_curve at h ⊢
      rw [if_neg he] at h ⊢
      simp only [] at h ⊢
      simp [mttOf, h, not_lt.mpr ha]
  · intro t y p h hp
    by_cases he : t.length = 0 ∨ y.length = 0
    · unfold metrics_from_curve
      rw [if_pos he]
    · unfold metrics_from_curve at h ⊢
      rw [if_neg he] at h ⊢
      simp only [] at h ⊢
      simp [slopeOf, h, not_lt.mpr hp]
  · intro t y h
    by_cases he : t.length = 0 ∨ y.length = 0
    · unfold metrics_from_curve
      rw [if_pos he]
    · unfold metrics_from_curve at h ⊢
      rw [if_neg he] at h ⊢
      simp only [] at h ⊢
      simp [slopeOf, h]
  · intro t y h
    by_cases he : t.length = 0 ∨ y.length = 0
    · unfold metrics_from_curve
      rw [if_pos he]
    · unfold metrics_from_curve
      rw [if_neg he]
      have hc : ¬(2 ≤ t.length ∧ y.length = t.length) := by omega
      simp [maxdiffOf, hc]

/-- Witness for C8 on concrete degenerate curves: an empty time axis, and a
non-positive curve (zero area, negative peak, single time sample). -/
theorem C8_metrics_degenerate_witness :
    metrics_from_curve [] [1] = ⟨none, none, none, none, none, none⟩ ∧
    (metrics_from_curve [0, 1] [-1, -2]).mtt = none ∧
    (metrics_from_curve [0, 1] [-1, -2]).slope = none ∧
    (metrics_from_curve [0] [-1]).maxdiff = none := by
  refine ⟨C8_metrics_degenerate.1 [] [1] (by left; rfl), ?_, ?_, ?_⟩
  · apply C8_metrics_degenerate.2.2.1 [0, 1] [-1, -2] 0
    · simp [metrics_from_curve, aucOf, yposOf, trapz, diffList]
    · norm_num
  · apply C8_metrics_degenerate.2.2.2.1 [0, 1] [-1, -2] (-1)
    · decide
    · norm_num
  · exact C8_metrics_degenerate.2.2.2.2.2 [0] [-1] (by decide)

/-! ## ModelFitter: `src/ceus_app_pyqt/src/analysis/models.py`

The bounded nonlinear solver `scipy.optimize.curve_fit` is an external
numerical routine; it is modelled as an oracle
`solver : (Fin 5 → ℝ) → Option (Fin 5 → ℝ)` mapping a start vector to the
fitted parameters, `none` when the call raises (a divergent start).  The
random jitters of `np.random.default_rng` are modelled by an explicit factor
sequence `factors` (uniform `[0.5, 1.5]` draws in the source).  All other
arithmetic of `fit_model` is embedded exactly. -/

/-- `np.median`: middle element of the sorted data, or the average of the
two middle elements; `0` for the empty list (numpy yields `nan`). -/
def medianQ (l : List ℚ) : ℚ :=
  if l.length = 0 then 0
  else
    if l.length % 2 = 1 then (l.mergeSort (fun a b => decide (a ≤ b))).getD (l.length / 2) 0
    else ((l.mergeSort (fun a b => decide (a ≤ b))).getD (l.length / 2 - 1) 0 +
      (l.mergeSort (fun a b => decide (a ≤ b))).getD (l.length / 2) 0) / 2

def meanQ (l : List ℚ) : ℚ := l.sum / (l.length : ℚ)

/-- Population variance `mean((x - mean(x))²)` (`np.std` squared). -/
def varianceQ (l : List ℚ) : ℚ :=
  ((l.map (fun v => (v - meanQ l) ^ 2)).sum) / (l.length : ℚ)

/-- `np.std`: square root of the population variance. -/
noncomputable def stdR (l : List ℚ) : ℝ := Real.sqrt ((varianceQ l : ℚ) : ℝ)

/-- `np.percentile(l, q)` with the default linear interpolation:
`h = (n-1)·q/100`, value `s[⌊h⌋] + (h-⌊h⌋)·(s[⌊h⌋+1] - s[⌊h⌋])` on the
sorted data. -/
def percentileQ (l : List ℚ) (q : ℚ) : ℚ :=
  let s := l.mergeSort (fun a b => decide (a ≤ b))
  let h : ℚ := ((l.length - 1 : ℕ) : ℚ) * q / 100
  let lo : ℕ := (⌊h⌋).toNat
  s.getD lo 0 + (h - (lo : ℚ)) * (s.getD (lo + 1) 0 - s.getD lo 0)

/-- `EPS = 1e-9` of models.py. -/
def fitEPS : ℚ := 1 / 1000000000

/-- `lognormal_func` (models.py lines 17-21). -/
noncomputable def lognormal_func (tv AUC u s t0 C : ℝ) : ℝ :=
  if tv ≤ t0 then C
  else
    AUC * ((1 / (Real.sqrt (2 * Real.pi) * s * max (tv - t0) ((fitEPS : ℚ) : ℝ))) *
      Real.exp (-(1/2) * ((Real.log (max (tv - t0) ((fitEPS : ℚ) : ℝ)) - u) / s) ^ 2)) + C

/-- `gamma_variate_func` (models.py lines 24-29). -/
noncomputable def gamma_variate_func (tv AUC a b t0 C : ℝ) : ℝ :=
  if tv ≤ t0 then C
  else
    AUC * ((max (tv - t0) ((fitEPS : ℚ) : ℝ)) ^ a *
      Real.exp (-(max (tv - t0) ((fitEPS : ℚ) : ℝ)) / b) /
      (b ^ (a + 1) * Real.Gamma (a + 1))) + C

/-- `ldrw_func` (models.py lines 32-36). -/
noncomputable def ldrw_func (tv AUC u lam t0 C : ℝ) : ℝ :=
  if tv ≤ t0 then C
  else
    AUC * (Real.exp lam / u *
      Real.sqrt (u * lam / (2 * Real.pi * max (tv - t0) ((fitEPS : ℚ) : ℝ)))) *
      Real.exp (-(1/2) * lam * (u / max (tv - t0) ((fitEPS : ℚ) : ℝ) +
        max (tv - t0) ((fitEPS : ℚ) : ℝ) / u)) + C

/-- `fpt_func` (models.py lines 39-43). -/
noncomputable def fpt_func (tv AUC u lam t0 C : ℝ) : ℝ :=
  if tv ≤ t0 then C
  else
    AUC * (Real.exp lam / u * Real.sqrt (lam / (2 * Real.pi)) *
      (u / max (tv - t0) ((fitEPS : ℚ) : ℝ)) ^ ((3:ℝ)/2)) *
      Real.exp (-(1/2) * lam * (u / max (tv - t0) ((fitEPS : ℚ) : ℝ) +
        max (tv - t0) ((fitEPS : ℚ) : ℝ) / u)) + C

/-- The `MODEL_FUNCS` dictionary of models.py (renamed: `[MOD` is a
reserved token in Lean); `none` for an unknown model name, where
`MODEL_FUNCS[model]` raises `KeyError`. -/
noncomputable def modelFuncsDict (model : String) :
    Option (ℝ → (Fin 5 → ℝ) → ℝ) :=
  if model = "lognormal" then
    some (fun tv p => lognormal_func tv (p 0) (p 1) (p 2) (p 3) (p 4))
  else if model = "gamma" then
    some (fun tv p => gamma_variate_func tv (p 0) (p 1) (p 2) (p 3) (p 4))
  else if model = "ldrw" then
    some (fun tv p => ldrw_func tv (p 0) (p 1) (p 2) (p 3) (p 4))
  else if model = "fpt" then
    some (fun tv p => fpt_func tv (p 0) (p 1) (p 2) (p 3) (p 4))
  else none

/-- `_initial_guesses` (models.py lines 54-67): the single data-seeded start
vector `p0`. -/
noncomputable def initial_guesses (model : String) (t y : List ℚ)
    (t0Hint CHint : ℚ) : Fin 5 → ℝ :=
  let AUC0 : ℚ := max (trapz (y.map (fun v => max (v - CHint) 0)) t) fitEPS
  if model = "lognormal" then
    ![(AUC0 : ℝ),
      max (Real.log (max ((medianQ (t.map (fun v => v - t0Hint)) : ℚ) : ℝ)
        ((fitEPS : ℚ) : ℝ))) 0,
      1/2, (t0Hint : ℝ), (CHint : ℝ)]
  else if model = "gamma" then
    ![(AUC0 : ℝ), 2, max (stdR (t.map (fun v => v - t0Hint))) (1/2),
      (t0Hint : ℝ), (CHint : ℝ)]
  else if model = "ldrw" ∨ model = "fpt" then
    ![(AUC0 : ℝ), ((max (medianQ (t.map (fun v => v - t0Hint))) (1/2) : ℚ) : ℝ),
      2, (t0Hint : ℝ), (CHint : ℝ)]
  else ![(AUC0 : ℝ), 1, 1/2, (t0Hint : ℝ), (CHint : ℝ)]

/-- `_bounds` (models.py lines 70-82): lower bounds and upper bounds, with
`none` for `np.inf`. -/
def fit_bounds (model : String) (t y : List ℚ) :
    (Fin 5 → ℚ) × (Fin 5 → Option ℚ) :=
  let tmax : ℚ := if t.length ≠ 0 then maxQ t else 1
  let Cmax : ℚ := max (if y.length ≠ 0 then maxQ y else 1) 1
  if model = "lognormal" then
    (![0, 0, 1/100, 0, 0], ![none, some 10, some 2, some tmax, some Cmax])
  else if model = "gamma" then
    (![0, 1/1000, 1/1000, 0, 0], ![none, some 20, some 20, some tmax, some Cmax])
  else
    (![0, 1/1000, 1/1000, 0, 0], ![none, some 100, some 20, some tmax, some Cmax])

/-- `np.clip(v, lb, ub)` with a possibly-infinite upper bound. -/
noncomputable def clipR (v : ℝ) (lb : ℚ) (ub : Option ℚ) : ℝ :=
  match ub with
  | none => max v (lb : ℝ)
  | some u => min (max v (lb : ℝ)) ((u : ℚ) : ℝ)

/-- One jittered start (models.py lines 100-104): `p0` scaled componentwise
by the random factors, with `t0` (index 3) and `C` (index 4) clipped back
into bounds. -/
noncomputable def jitterStart (p0 : Fin 5 → ℝ) (factor : Fin 5 → ℚ)
    (bounds : (Fin 5 → ℚ) × (Fin 5 → Option ℚ)) : Fin 5 → ℝ :=
  fun j =>
    if j = 3 ∨ j = 4 then clipR (p0 j * (factor j : ℝ)) (bounds.1 j) (bounds.2 j)
    else p0 j * (factor j : ℝ)

/-- The running best of the multi-start loop: parameters, residual sum of
squares (`none` models the initial `np.inf`), fitted curve. -/
structure FitBest where
  params : Fin 5 → ℝ
  rss : Option ℝ
  yfit : List ℝ

/-- `fit_model` (models.py lines 85-119): resolve hints, build `p0` and the
jittered starts, run the solver oracle from every start, keep the lowest
finite RSS; the initial best is the data-seeded guess with `rss = ∞`. -/
noncomputable def fit_model (model : String) (t y : List ℚ)
    (t0Hint CHint : Option ℚ) (nStarts : ℕ) (factors : ℕ → Fin 5 → ℚ)
    (solver : (Fin 5 → ℝ) → Option (Fin 5 → ℝ)) : Option FitBest :=
  match modelFuncsDict model with
  | none => none
  | some func =>
    let t0h : ℚ := t0Hint.getD (t.headD 0)
    let Ch : ℚ := CHint.getD (if y.length ≠ 0 then percentileQ y 10 else 0)
    let p0 := initial_guesses model t y t0h Ch
    let starts := p0 :: (List.range (max 1 (nStarts - 1))).map
      (fun i => jitterStart p0 (factors i) (fit_bounds model t y))
    some (starts.foldl (fun best guess =>
      match solver guess with
      | none => best
      | some popt =>
        let yhat := t.map (fun tv => func ((tv : ℚ) : ℝ) popt)
        let rss : ℝ := (List.zipWith (fun yv hv => (((yv : ℚ) : ℝ) - hv) ^ 2) y yhat).sum
        let better : Bool :=
          match best.rss with
          | none => true
          | some br => decide (rss < br)
        if better then ⟨popt, some rss, yhat⟩ else best)
      ⟨p0, none, t.map (fun tv => func ((tv : ℚ) : ℝ) p0)⟩)

/-- `fit_models` (models.py lines 122-129): one result per requested model;
`None` exactly when `fit_model` raises (unknown model name). -/
noncomputable def fit_models (t y : List ℚ) (models : List String)
    (t0Hint CHint : Option ℚ) (nStarts : ℕ) (factors : ℕ → Fin 5 → ℚ)
    (solver : (Fin 5 → ℝ) → Option (Fin 5 → ℝ)) :
    List (String × Option FitBest) :=
  models.map (fun m => (m, fit_model m t y t0Hint CHint nStarts factors solver))

theorem foldl_id {α β : Type} (f : β → α → β) (h : ∀ b a, f b a = b) :
    ∀ (l : List α) (b : β), l.foldl f b = b := by
  intro l
  induction l with
  | nil => intro b; rfl
  | cons a t ih =>
    intro b
    rw [List.foldl_cons, h]
    exact ih b

/-- C1 counterexample: with a solver oracle on which *every* bounded
least-squares start fails, `fit_model` still returns a result (the
data-seeded initial guess with `rss = ∞` and its fitted curve), not the
null marker the claim demands. -/
theorem C1_all_starts_fail_counterexample :
    (∀ p : Fin 5 → ℝ, (fun _ : Fin 5 → ℝ => (none : Option (Fin 5 → ℝ))) p = none) ∧
    fit_model "lognormal" [0, 1, 2] [0, 0, 0] none none 60 (fun _ _ => 1)
      (fun _ => none) ≠ none := by
  refine ⟨fun _ => rfl, ?_⟩
  simp [fit_model, modelFuncsDict]

/-- C1 amended: for every known model name and every input, if every one of
the bounded least-squares attempts fails (the solver oracle returns `none`
on every start), `fit_model` does *not* fail and does not return a null
marker: it returns the data-seeded initial guess `p0` as the parameter
vector, `rss = ∞` (modelled `none`), and the model curve evaluated at `p0`
as the fitted curve.  `fit_models` maps a model name to `None` only when
`fit_model` itself raises, i.e. for a model name missing from
`modelFuncsDict`. -/
theorem C1_all_starts_fail_amended (model : String)
    (func : ℝ → (Fin 5 → ℝ) → ℝ) (hm : modelFuncsDict model = some func)
    (t y : List ℚ) (t0Hint CHint : Option ℚ) (nStarts : ℕ)
    (factors : ℕ → Fin 5 → ℚ) (solver : (Fin 5 → ℝ) → Option (Fin 5 → ℝ))
    (hfail : ∀ p, solver p = none) :
    fit_model model t y t0Hint CHint nStarts factors solver =
      some ⟨initial_guesses model t y (t0Hint.getD (t.headD 0))
              (CHint.getD (if y.length ≠ 0 then percentileQ y 10 else 0)),
            none,
            t.map (fun tv => func ((tv : ℚ) : ℝ)
              (initial_guesses model t y (t0Hint.getD (t.headD 0))
                (CHint.getD (if y.length ≠ 0 then percentileQ y 10 else 0))))⟩ := by
  simp only [fit_model, hm]
  congr 1
  apply foldl_id
  intro b g
  rw [hfail g]

/-- Witness for the amended C1 statement: a concrete always-failing solver
on a concrete curve. -/
theorem C1_all_starts_fail_amended_witness :
    modelFuncsDict "lognormal" =
      some (fun tv p => lognormal_func tv (p 0) (p 1) (p 2) (p 3) (p 4)) ∧
    (∀ p : Fin 5 → ℝ, (fun _ : Fin 5 → ℝ => (none : Option (Fin 5 → ℝ))) p = none) ∧
    fit_model "lognormal" [0, 1, 2] [0, 0, 0] none none 60 (fun _ _ => 1)
        (fun _ => none) =
      some ⟨initial_guesses "lognormal" [0, 1, 2] [0, 0, 0]
              ((none : Option ℚ).getD (([0, 1, 2] : List ℚ).headD 0))
              ((none : Option ℚ).getD
                (if ([0, 0, 0] : List ℚ).length ≠ 0 then percentileQ [0, 0, 0] 10 else 0)),
            none,
            ([0, 1, 2] : List ℚ).map (fun tv =>
              (fun tv p => lognormal_func tv (p 0) (p 1) (p 2) (p 3) (p 4)) ((tv : ℚ) : ℝ)
                (initial_guesses "lognormal" [0, 1, 2] [0, 0, 0]
                  ((none : Option ℚ).getD (([0, 1, 2] : List ℚ).headD 0))
                  ((none : Option ℚ).getD
                    (if ([0, 0, 0] : List ℚ).length ≠ 0 then percentileQ [0, 0, 0] 10 else 0))))⟩ := by
  refine ⟨?_, fun _ => rfl, ?_⟩
  · simp [modelFuncsDict]
  · exact C1_all_starts_fail_amended "lognormal"
      (fun tv p => lognormal_func tv (p 0) (p 1) (p 2) (p 3) (p 4))
      (by simp [modelFuncsDict]) [0, 1, 2] [0, 0, 0] none none 60 (fun _ _ => 1)
      (fun _ => none) (fun _ => rfl)

/-! ## RegionClassifier: `src/ceus_app_pyqt/src/core/dicom_loader.py`

The decoded pixel volume is modelled in its multi-channel form
`(T, H, W, 3)` (the form on which `_color_variance` operates); pixels are
exact `ℚ` triples `(r, g, b)`.  `np.std` is an exact real square root, so
`_color_variance` is `ℝ`-valued and the scoring branch of
`_classify_regions` is noncomputable. -/

abbrev Pixel := ℚ × ℚ × ℚ
abbrev Frame := List (List Pixel)
abbrev PixStack := List Frame

/-- One pixel of `ycbcr_to_rgb` (converters.py lines 7-31): BT.601
luma/chroma to RGB, clipped to `[0, 255]` and truncated to `uint8`. -/
def ycbcr_to_rgb_pix (p : Pixel) : Pixel :=
  (((⌊min (max (p.1 + (1402/1000) * (p.2.2 - 128)) 0) 255⌋ : ℤ) : ℚ),
   ((⌊min (max (p.1 - (344136/1000000) * (p.2.1 - 128)
      - (714136/1000000) * (p.2.2 - 128)) 0) 255⌋ : ℤ) : ℚ),
   ((⌊min (max (p.1 + (1772/1000) * (p.2.1 - 128)) 0) 255⌋ : ℤ) : ℚ))

/-- `DICOMLoader._convert_colorspace`: convert every frame to RGB when the
photometric interpretation contains `YBR` (`isYbr`). -/
def convert_colorspace (isYbr : Bool) (s : PixStack) : PixStack :=
  if isYbr then s.map (fun fr => fr.map (fun row => row.map ycbcr_to_rgb_pix))
  else s

/-- `_color_variance` (dicom_loader.py lines 12-24): sum of the standard
deviations of the three pairwise channel differences on the mid-sequence
frame `min(T/2, T-1)`. -/
noncomputable def color_variance (s : PixStack) : ℝ :=
  stdR ((s.getD (min (s.length / 2) (s.length - 1)) []).flatten.map
      (fun p => p.1 - p.2.1)) +
    stdR ((s.getD (min (s.length / 2) (s.length - 1)) []).flatten.map
      (fun p => p.2.1 - p.2.2)) +
    stdR ((s.getD (min (s.length / 2) (s.length - 1)) []).flatten.map
      (fun p => p.1 - p.2.2))

/-- A `SequenceOfUltrasoundRegions` item: data-type tag, flags, geometry;
each attribute may be absent. -/
structure RegionDesc where
  dtype : Option ℤ
  flags : Option ℤ
  x0 : Option ℤ
  y0 : Option ℤ
  x1 : Option ℤ
  y1 : Option ℤ

/-- One parsed tuple `(i, dtype, flags, x0, region_stack)` of
`_extract_regions`. -/
structure ParsedRegion where
  idx : ℕ
  dtype : Option ℤ
  flags : Option ℤ
  x0 : ℕ
  stack : PixStack
deriving DecidableEq

def defaultRegion : ParsedRegion := ⟨0, none, none, 0, []⟩

def stackH (arr : PixStack) : ℕ := (arr.headD []).length

def stackW (arr : PixStack) : ℕ := ((arr.headD []).headD []).length

/-- `max(0, min(int(v), n - 1))`. -/
def clipCoord (v : ℤ) (n : ℕ) : ℕ := (max 0 (min v ((n : ℤ) - 1))).toNat

/-- `arr[:, y0:y1+1, x0:x1+1, :]`. -/
def sliceStack (arr : PixStack) (y0 y1 x0 x1 : ℕ) : PixStack :=
  arr.map (fun fr => ((fr.drop y0).take (y1 + 1 - y0)).map
    (fun row => (row.drop x0).take (x1 + 1 - x0)))

/-- The per-descriptor body of the `_extract_regions` loop (dicom_loader.py
lines 100-127): skip a descriptor with any missing coordinate, clip to the
volume, skip degenerate geometry, otherwise slice. -/
def parseRegion (arr : PixStack) (i : ℕ) (r : RegionDesc) :
    Option ParsedRegion :=
  match r.x0, r.y0, r.x1, r.y1 with
  | some rx0, some ry0, some rx1, some ry1 =>
    if clipCoord rx1 (stackW arr) ≤ clipCoord rx0 (stackW arr) ∨
        clipCoord ry1 (stackH arr) ≤ clipCoord ry0 (stackH arr) then none
    else some ⟨i, r.dtype, r.flags, clipCoord rx0 (stackW arr),
      sliceStack arr (clipCoord ry0 (stackH arr)) (clipCoord ry1 (stackH arr))
        (clipCoord rx0 (stackW arr)) (clipCoord rx1 (stackW arr))⟩
  | _, _, _, _ => none

/-- The `all_regions` list of `_extract_regions`. -/
def extractParsed (arr : PixStack) (regions : List RegionDesc) :
    List ParsedRegion :=
  regions.enum.filterMap (fun p => parseRegion arr p.1 p.2)

/-- `{bmode, ceus}` stacks and region indices of the loader after
classification. -/
structure ClassifiedStacks where
  bmode : Option PixStack
  ceus : Option PixStack
  bmodeIdx : Option ℕ
  ceusIdx : Option ℕ
deriving DecidableEq

/-- `DICOMLoader._classify_regions` (dicom_loader.py lines 132-173).
`isGe` is `'ge' in manufacturer.lower()`.  Python's `sorted`/`list.sort`
are stable, as is `List.mergeSort`. -/
noncomputable def classify_regions (isGe isYbr : Bool)
    (allRegions : List ParsedRegion) : ClassifiedStacks :=
  let type2 := allRegions.filter (fun r => decide (r.dtype = some 2))
  let type1 := allRegions.filter (fun r => decide (r.dtype = some 1))
  if type2.length ≠ 0 then
    if type1.length ≠ 0 then
      ⟨some (convert_colorspace isYbr (type1.getD 0 defaultRegion).stack),
       some (convert_colorspace isYbr (type2.getD 0 defaultRegion).stack),
       some (type1.getD 0 defaultRegion).idx,
       some (type2.getD 0 defaultRegion).idx⟩
    else
      ⟨none, some (convert_colorspace isYbr (type2.getD 0 defaultRegion).stack),
       none, some (type2.getD 0 defaultRegion).idx⟩
  else if 2 ≤ type1.length then
    if isGe then
      ⟨some (convert_colorspace isYbr
          ((type1.mergeSort (fun a b => decide (a.x0 ≤ b.x0))).getD 0
            defaultRegion).stack),
       some (convert_colorspace isYbr
          ((type1.mergeSort (fun a b => decide (a.x0 ≤ b.x0))).getD 1
            defaultRegion).stack),
       some ((type1.mergeSort (fun a b => decide (a.x0 ≤ b.x0))).getD 0
          defaultRegion).idx,
       some ((type1.mergeSort (fun a b => decide (a.x0 ≤ b.x0))).getD 1
          defaultRegion).idx⟩
    else
      ⟨some (convert_colorspace isYbr
          ((type1.mergeSort (fun a b =>
            decide (color_variance b.stack ≤ color_variance a.stack))).getD 1
            defaultRegion).stack),
       some (convert_colorspace isYbr
          ((type1.mergeSort (fun a b =>
            decide (color_variance b.stack ≤ color_variance a.stack))).getD 0
            defaultRegion).stack),
       some ((type1.mergeSort (fun a b =>
          decide (color_variance b.stack ≤ color_variance a.stack))).getD 1
          defaultRegion).idx,
       some ((type1.mergeSort (fun a b =>
          decide (color_variance b.stack ≤ color_variance a.stack))).getD 0
          defaultRegion).idx⟩
  else if allRegions.length = 1 then
    ⟨none, some (convert_colorspace isYbr (allRegions.getD 0 defaultRegion).stack),
     none, some (allRegions.getD 0 defaultRegion).idx⟩
  else ⟨none, none, none, none⟩

/-- `DICOMLoader._extract_regions` (dicom_loader.py lines 89-130): whole
volume as CEUS when the descriptor sequence is absent or empty, otherwise
parse every descriptor and classify. -/
noncomputable def extract_regions (arr : PixStack)
    (regions : Option (List RegionDesc)) (isGe isYbr : Bool) :
    ClassifiedStacks :=
  match regions with
  | none => ⟨none, some (convert_colorspace isYbr arr), none, none⟩
  | some rs =>
    if rs.length = 0 then ⟨none, some (convert_colorspace isYbr arr), none, none⟩
    else classify_regions isGe isYbr (extractParsed arr rs)

theorem mergeSort_pair {α : Type} (le : α → α → Bool) (a b : α) :
    List.mergeSort [a, b] le = if le a b then [a, b] else [b, a] := by
  simp [List.mergeSort, List.merge]

/-- C4 counterexample: a volume with a descriptor list that is present but
yields no usable region (one descriptor with a missing coordinate, one with
degenerate zero-area geometry) is *not* treated as whole-volume CEUS — the
classifier assigns nothing and `ceus` stays `None`. -/
theorem C4_no_usable_region_counterexample :
    (extract_regions [[[((0:ℚ), (0:ℚ), (0:ℚ))]]]
        (some [⟨some 1, none, none, some 0, some 1, some 1⟩,
               ⟨some 2, none, some 0, some 0, some 0, some 0⟩])
        false false).ceus = none ∧
    (none : Option PixStack) ≠ some [[[((0:ℚ), (0:ℚ), (0:ℚ))]]] := by
  exact ⟨rfl, by simp⟩

/-- C4 amended: the whole decoded volume is used as CEUS exactly when the
region-descriptor list is absent or empty; when descriptors are present but
every one of them is unusable (missing or degenerate geometry), the
classifier assigns no stack at all — `ceus` remains `None` and no CEUS
stack is produced. -/
theorem C4_region_fallback_amended (arr : PixStack) (isGe isYbr : Bool) :
    (extract_regions arr none isGe isYbr).ceus =
      some (convert_colorspace isYbr arr) ∧
    (extract_regions arr (some []) isGe isYbr).ceus =
      some (convert_colorspace isYbr arr) ∧
    (∀ rs : List RegionDesc, rs ≠ [] →
      (∀ p ∈ rs.enum, parseRegion arr p.1 p.2 = none) →
      extract_regions arr (some rs) isGe isYbr = ⟨none, none, none, none⟩) := by
  refine ⟨rfl, rfl, ?_⟩
  intro rs hne hall
  simp only [extract_regions]
  rw [if_neg (by simpa [List.length_eq_zero] using hne)]
  have hparsed : extractParsed arr rs = [] := by
    unfold extractParsed
    exact List.filterMap_eq_nil_iff.mpr hall
  rw [hparsed]
  rfl

/-- Witness for the amended C4 statement on a concrete volume and concrete
unusable descriptors. -/
theorem C4_region_fallback_amended_witness :
    (extract_regions [[[((0:ℚ), (0:ℚ), (0:ℚ))]]] none false false).ceus =
      some (convert_colorspace false [[[((0:ℚ), (0:ℚ), (0:ℚ))]]]) ∧
    ([⟨some 1, none, none, some 0, some 1, some 1⟩,
      ⟨some 2, none, some 0, some 0, some 0, some 0⟩] : List RegionDesc) ≠ [] ∧
    extract_regions [[[((0:ℚ), (0:ℚ), (0:ℚ))]]]
        (some [⟨some 1, none, none, some 0, some 1, some 1⟩,
               ⟨some 2, none, some 0, some 0, some 0, some 0⟩]) false false =
      ⟨none, none, none, none⟩ := by
  have h := C4_region_fallback_amended [[[((0:ℚ), (0:ℚ), (0:ℚ))]]] false false
  refine ⟨h.1, by simp, ?_⟩
  exact h.2.2 _ (by simp) (by decide)

/-- C7: for two ambiguous (data-type-1) regions of a non-split-screen-vendor
recording whose color-variance scores are distinct, the higher-variance
region is assigned CEUS and the other B-mode, for either order of the
descriptors. -/
theorem C7_color_variance_higher_wins (isYbr : Bool) (r1 r2 : ParsedRegion)
    (h1 : r1.dtype = some 1) (h2 : r2.dtype = some 1)
    (hv : color_variance r2.stack < color_variance r1.stack) :
    (classify_regions false isYbr [r1, r2]).ceus =
        some (convert_colorspace isYbr r1.stack) ∧
    (classify_regions false isYbr [r1, r2]).bmode =
        some (convert_colorspace isYbr r2.stack) ∧
    (classify_regions false isYbr [r2, r1]).ceus =
        some (convert_colorspace isYbr r1.stack) ∧
    (classify_regions false isYbr [r2, r1]).bmode =
        some (convert_colorspace isYbr r2.stack) := by
  have hd1 : (decide (r1.dtype = some 2)) = false := by
    simp [h1]
  have hd2 : (decide (r2.dtype = some 2)) = false := by
    simp [h2]
  have he1 : (decide (r1.dtype = some 1)) = true := by
    simp [h1]
  have he2 : (decide (r2.dtype = some 1)) = true := by
    simp [h2]
  have hleT : (decide (color_variance r2.stack ≤ color_variance r1.stack)) = true := by
    simp [hv.le]
  have hleF : (decide (color_variance r1.stack ≤ color_variance r2.stack)) = false := by
    simp [not_le.mpr hv]
  have hfa2 : ([r1, r2].filter (fun r => decide (r.dtype = some 2))) = [] := by
    simp [List.filter, hd1, hd2]
  have hfa1 : ([r1, r2].filter (fun r => decide (r.dtype = some 1))) = [r1, r2] := by
    simp [List.filter, he1, he2]
  have hfb2 : ([r2, r1].filter (fun r => decide (r.dtype = some 2))) = [] := by
    simp [List.filter, hd1, hd2]
  have hfb1 : ([r2, r1].filter (fun r => decide (r.dtype = some 1))) = [r2, r1] := by
    simp [List.filter, he1, he2]
  refine ⟨?_, ?_, ?_, ?_⟩ <;>
  · unfold classify_regions
    simp only [hfa2, hfa1, hfb2, hfb1, List.length_nil, List.length_cons,
      mergeSort_pair, hleT, hleF, if_true, if_false, Bool.false_eq_true]
    norm_num

/-- Witness for C7: two concrete one-frame regions, one grayscale (score 0)
and one colored (score 2); the colored one becomes CEUS in both descriptor
orders. -/
theorem C7_color_variance_higher_wins_witness :
    color_variance [[[((0:ℚ), (0:ℚ), (0:ℚ)), ((0:ℚ), (0:ℚ), (0:ℚ))]]] <
      color_variance [[[((1:ℚ), (0:ℚ), (0:ℚ)), ((0:ℚ), (1:ℚ), (0:ℚ))]]] ∧
    (classify_regions false false
      [⟨0, some 1, none, 0, [[[((1:ℚ), (0:ℚ), (0:ℚ)), ((0:ℚ), (1:ℚ), (0:ℚ))]]]⟩,
       ⟨1, some 1, none, 0, [[[((0:ℚ), (0:ℚ), (0:ℚ)), ((0:ℚ), (0:ℚ), (0:ℚ))]]]⟩]).ceus =
      some [[[((1:ℚ), (0:ℚ), (0:ℚ)), ((0:ℚ), (1:ℚ), (0:ℚ))]]] ∧
    (classify_regions false false
      [⟨1, some 1, none, 0, [[[((0:ℚ), (0:ℚ), (0:ℚ)), ((0:ℚ), (0:ℚ), (0:ℚ))]]]⟩,
       ⟨0, some 1, none, 0, [[[((1:ℚ), (0:ℚ), (0:ℚ)), ((0:ℚ), (1:ℚ), (0:ℚ))]]]⟩]).ceus =
      some [[[((1:ℚ), (0:ℚ), (0:ℚ)), ((0:ℚ), (1:ℚ), (0:ℚ))]]] := by
  have hA : color_variance [[[((0:ℚ), (0:ℚ), (0:ℚ)), ((0:ℚ), (0:ℚ), (0:ℚ))]]] = 0 := by
    unfold color_variance stdR
    norm_num [varianceQ, meanQ, Real.sqrt_zero]
  have s14 : Real.sqrt (1/4) = 1/2 := by
    rw [show (1/4 : ℝ) = (1/2) ^ 2 by norm_num, Real.sqrt_sq (by norm_num)]
  have hB : color_variance [[[((1:ℚ), (0:ℚ), (0:ℚ)), ((0:ℚ), (1:ℚ), (0:ℚ))]]] = 2 := by
    unfold color_variance stdR
    norm_num [varianceQ, meanQ, Real.sqrt_one, s14]
  have hv : color_variance [[[((0:ℚ), (0:ℚ), (0:ℚ)), ((0:ℚ), (0:ℚ), (0:ℚ))]]] <
      color_variance [[[((1:ℚ), (0:ℚ), (0:ℚ)), ((0:ℚ), (1:ℚ), (0:ℚ))]]] := by
    rw [hA, hB]
    norm_num
  have h := C7_color_variance_higher_wins false
    (⟨0, some 1, none, 0, [[[((1:ℚ), (0:ℚ), (0:ℚ)), ((0:ℚ), (1:ℚ), (0:ℚ))]]]⟩ : ParsedRegion)
    (⟨1, some 1, none, 0, [[[((0:ℚ), (0:ℚ), (0:ℚ)), ((0:ℚ), (0:ℚ), (0:ℚ))]]]⟩ : ParsedRegion)
    rfl rfl hv
  exact ⟨hv, h.1, h.2.2.1⟩

/-! ## Preprocessor: `src/ceus_app_pyqt/src/core/preprocessing.py`

Pixel values are exact reals (`log1p`, Gaussian kernels).  The scipy
filters are embedded with their documented semantics: `median_filter` and
`gaussian_filter` use `reflect` boundaries, `gaussian_filter1d` on the time
axis uses `nearest`, `np.pad(mode='edge')` clamps; a Gaussian kernel has
radius `int(4σ + 0.5)` and normalized positive weights.  A `sigma = 0` axis
is the identity and is omitted.  Stacks are modelled `(T, H, W)` with an
explicit RGB variant for `(T, H, W, 3)` input. -/

abbrev GrayStack := List (List (List ℝ))
abbrev RGBStack := List (List (List (ℝ × ℝ × ℝ)))

inductive CeusInput where
  | gray : GrayStack → CeusInput
  | rgb : RGBStack → CeusInput

/-- `to_gray` (converters.py lines 33-47): BT.601 luminance. -/
noncomputable def to_gray (fr : List (List (ℝ × ℝ × ℝ))) : List (List ℝ) :=
  fr.map (fun row => row.map (fun p =>
    (299/1000) * p.1 + (587/1000) * p.2.1 + (114/1000) * p.2.2))

noncomputable def sampAt (s : GrayStack) (ti yi xi : ℕ) : ℝ :=
  ((s.getD ti []).getD yi []).getD xi 0

def stackHR (s : GrayStack) : ℕ := (s.headD []).length

def stackWR (s : GrayStack) : ℕ := ((s.headD []).headD []).length

/-- Build a `(T, H, W)` stack from an index function. -/
noncomputable def genStack (T H W : ℕ) (f : ℕ → ℕ → ℕ → ℝ) : GrayStack :=
  (List.range T).map (fun ti => (List.range H).map (fun yi =>
    (List.range W).map (fun xi => f ti yi xi)))

noncomputable def mapStack (f : ℝ → ℝ) (s : GrayStack) : GrayStack :=
  s.map (fun fr => fr.map (fun row => row.map f))

/-- scipy `reflect` boundary `(d c b a | a b c d | d c b a)`. -/
def reflectIdx (n : ℕ) (i : ℤ) : ℕ :=
  if n = 0 then 0
  else
    let m := (i % (2 * n)).toNat
    if m < n then m else 2 * n - 1 - m

/-- scipy `nearest` / numpy `edge` boundary: clamp. -/
def clampIdx (n : ℕ) (i : ℤ) : ℕ :=
  if i < 0 then 0 else min i.toNat (n - 1)

noncomputable def sortR (l : List ℝ) : List ℝ :=
  l.mergeSort (fun a b => decide (a ≤ b))

/-- `np.median` over reals. -/
noncomputable def medianR (l : List ℝ) : ℝ :=
  if l.length = 0 then 0
  else if l.length % 2 = 1 then (sortR l).getD (l.length / 2) 0
  else ((sortR l).getD (l.length / 2 - 1) 0 + (sortR l).getD (l.length / 2) 0) / 2

/-- `np.percentile` over reals (linear interpolation). -/
noncomputable def percentileR (l : List ℝ) (q : ℝ) : ℝ :=
  ((sortR l).getD ((⌊((l.length - 1 : ℕ) : ℝ) * q / 100⌋).toNat) 0) +
    (((l.length - 1 : ℕ) : ℝ) * q / 100 -
      (((⌊((l.length - 1 : ℕ) : ℝ) * q / 100⌋).toNat : ℕ) : ℝ)) *
    ((sortR l).getD ((⌊((l.length - 1 : ℕ) : ℝ) * q / 100⌋).toNat + 1) 0 -
      (sortR l).getD ((⌊((l.length - 1 : ℕ) : ℝ) * q / 100⌋).toNat) 0)

/-- Unnormalized Gaussian kernel weight `exp(-o²/(2σ²))`. -/
noncomputable def gaussW (σ : ℝ) (o : ℤ) : ℝ :=
  Real.exp (-((o : ℝ) ^ 2) / (2 * σ ^ 2))

/-- scipy kernel radius `int(truncate·σ + 0.5)` with `truncate = 4`. -/
noncomputable def gaussRadius (σ : ℝ) : ℕ := (⌊4 * σ + 1/2⌋).toNat

/-- One output sample of a normalized 1D Gaussian correlation. -/
noncomputable def gaussAt (σ : ℝ) (sample : ℤ → ℝ) (j : ℕ) : ℝ :=
  (((List.range (2 * gaussRadius σ + 1)).map
        (fun (o : ℕ) => (o : ℤ) - (gaussRadius σ : ℤ))).map
      (fun o => gaussW σ o * sample ((j : ℤ) + o))).sum /
    (((List.range (2 * gaussRadius σ + 1)).map
        (fun (o : ℕ) => (o : ℤ) - (gaussRadius σ : ℤ))).map
      (fun o => gaussW σ o)).sum

/-- `gaussian_filter(X, sigma=(0, σ, σ))`: 1D Gaussian along rows then
columns of every frame, `reflect` boundary. -/
noncomputable def gauss_spatial (σ : ℝ) (s : GrayStack) : GrayStack :=
  let sy := genStack s.length (stackHR s) (stackWR s) (fun ti yi xi =>
    gaussAt σ (fun z => sampAt s ti (reflectIdx (stackHR s) z) xi) yi)
  genStack sy.length (stackHR sy) (stackWR sy) (fun ti yi xi =>
    gaussAt σ (fun z => sampAt sy ti yi (reflectIdx (stackWR sy) z)) xi)

/-- `median_filter(X, size=(1, 3, 3))`: per-pixel median of the 3×3
spatial neighborhood, `reflect` boundary. -/
noncomputable def median_spatial (s : GrayStack) : GrayStack :=
  genStack s.length (stackHR s) (stackWR s) (fun ti yi xi =>
    medianR (((List.range 3).map (fun (dy : ℕ) => (List.range 3).map (fun (dx : ℕ) =>
      sampAt s ti (reflectIdx (stackHR s) ((yi : ℤ) + (dy : ℤ) - 1))
        (reflectIdx (stackWR s) ((xi : ℤ) + (dx : ℤ) - 1))))).flatten))

/-- `gaussian_filter1d(X, sigma, axis=0, mode='nearest')`. -/
noncomputable def gauss_temporal (σ : ℝ) (s : GrayStack) : GrayStack :=
  genStack s.length (stackHR s) (stackWR s) (fun ti yi xi =>
    gaussAt σ (fun z => sampAt s (clampIdx s.length z) yi xi) ti)

/-- The naive odd-window moving mean along time with `edge` padding
(preprocessing.py lines 77-86). -/
noncomputable def mean_temporal (k : ℕ) (s : GrayStack) : GrayStack :=
  genStack s.length (stackHR s) (stackWR s) (fun ti yi xi =>
    ((List.range k).map (fun (o : ℕ) =>
      sampAt s (clampIdx s.length ((ti : ℤ) + (o : ℤ) - ((k / 2 : ℕ) : ℤ))) yi xi)).sum / k)

/-- The grayscale pipeline of `preprocess_ceus` (preprocessing.py lines
44-88): percentile normalization and clip to `[0,1]`, optional
log-compression, optional spatial denoise, baseline subtraction clamped at
zero, optional temporal smoothing. -/
noncomputable def preprocess_gray (X0 : GrayStack) (use_log : Bool)
    (p_lo p_hi : ℝ) (spatial temporal : Option String) (t_win : ℕ)
    (baseline_frames : Option ℤ) : GrayStack :=
  let p1 := percentileR X0.flatten.flatten p_lo
  let p99x := percentileR X0.flatten.flatten p_hi
  let p99 := if p1 < p99x then p99x else p1 + 1/1000
  let X1 := mapStack (fun v => min (max ((v - p1) / (p99 - p1)) 0) 1) X0
  let X2 := if use_log then
      mapStack (fun v => Real.log (1 + 20 * v) / Real.log 21) X1
    else X1
  let X3 := if spatial = some "median" then median_spatial X2
    else if spatial = some "gaussian" then gauss_spatial (3/5) X2
    else X2
  let N : ℕ := match baseline_frames with
    | none => 0
    | some bf => if bf ≤ 0 then 0 else min bf.toNat (max 1 (X3.length / 10))
  let X4 := if 0 < N then
      genStack X3.length (stackHR X3) (stackWR X3) (fun ti yi xi =>
        max (sampAt X3 ti yi xi -
          medianR ((List.range N).map (fun fj => sampAt X3 fj yi xi))) 0)
    else X3
  if temporal = some "gaussian" ∧ 1 < X4.length then
    gauss_temporal (max (1/2) (((t_win : ℝ) - 1) / 2)) X4
  else if temporal = some "mean" ∧ 1 < X4.length then
    mean_temporal (if (max 1 t_win) % 2 = 1 then max 1 t_win else max 1 t_win + 1) X4
  else X4

/-- `preprocess_ceus` (preprocessing.py lines 11-88): reduce a
multi-channel stack to luminance, then run the grayscale pipeline. -/
noncomputable def preprocess_ceus (stack : CeusInput) (use_log : Bool)
    (p_lo p_hi : ℝ) (spatial temporal : Option String) (t_win : ℕ)
    (baseline_frames : Option ℤ) : GrayStack :=
  match stack with
  | .gray g => preprocess_gray g use_log p_lo p_hi spatial temporal t_win baseline_frames
  | .rgb r => preprocess_gray (r.map to_gray) use_log p_lo p_hi spatial temporal
      t_win baseline_frames

/-- The numpy shape of an input volume. -/
def shapeIn : CeusInput → List ℕ
  | .gray g => [g.length, stackHR g, stackWR g]
  | .rgb r => [r.length, (r.headD []).length, ((r.headD []).headD []).length, 3]

/-- The numpy shape of the output stack. -/
def shapeOut (s : GrayStack) : List ℕ := [s.length, stackHR s, stackWR s]

/-- `(T, H, W)` rectangularity of a gray stack. -/
def rect3 (s : GrayStack) (T H W : ℕ) : Prop :=
  s.length = T ∧ ∀ fr ∈ s, fr.length = H ∧ ∀ row ∈ fr, row.length = W

/-- `(T, H, W, 3)` rectangularity of an RGB stack. -/
def rect3rgb (s : RGBStack) (T H W : ℕ) : Prop :=
  s.length = T ∧ ∀ fr ∈ s, fr.length = H ∧ ∀ row ∈ fr, row.length = W

/-- All samples of a stack lie in `[0, 1]`. -/
def inUnit (s : GrayStack) : Prop :=
  ∀ fr ∈ s, ∀ row ∈ fr, ∀ v ∈ row, 0 ≤ v ∧ v ≤ 1

/-! ### Range invariants of the preprocessing stages -/

theorem getD_mem_or_default {α : Type} (l : List α) (n : ℕ) (d : α) :
    l.getD n d ∈ l ∨ l.getD n d = d := by
  by_cases h : n < l.length
  · left
    rw [List.getD_eq_getElem _ _ h]
    exact List.getElem_mem h
  · right
    exact List.getD_eq_default _ _ (le_of_not_lt h)

theorem sampAt_unit {s : GrayStack} (hs : inUnit s) (t y x : ℕ) :
    0 ≤ sampAt s t y x ∧ sampAt s t y x ≤ 1 := by
  unfold sampAt
  rcases getD_mem_or_default s t [] with hf | hf
  · rcases getD_mem_or_default (s.getD t []) y [] with hr | hr
    · rcases getD_mem_or_default ((s.getD t []).getD y []) x 0 with hv | hv
      · exact hs _ hf _ hr _ hv
      · rw [hv]; norm_num
    · rw [hr]; simp
  · rw [hf]; simp

theorem sortR_mem {l : List ℝ} {v : ℝ} (h : v ∈ sortR l) : v ∈ l :=
  (List.mergeSort_perm l _).subset h

theorem medianR_unit {l : List ℝ} (hb : ∀ v ∈ l, 0 ≤ v ∧ v ≤ 1) :
    0 ≤ medianR l ∧ medianR l ≤ 1 := by
  unfold medianR
  split
  · norm_num
  · split
    · rcases getD_mem_or_default (sortR l) (l.length / 2) 0 with hm | hm
      · exact hb _ (sortR_mem hm)
      · rw [hm]; norm_num
    · have b1 : 0 ≤ (sortR l).getD (l.length / 2 - 1) 0 ∧
          (sortR l).getD (l.length / 2 - 1) 0 ≤ 1 := by
        rcases getD_mem_or_default (sortR l) (l.length / 2 - 1) 0 with hm | hm
        · exact hb _ (sortR_mem hm)
        · rw [hm]; norm_num
      have b2 : 0 ≤ (sortR l).getD (l.length / 2) 0 ∧
          (sortR l).getD (l.length / 2) 0 ≤ 1 := by
        rcases getD_mem_or_default (sortR l) (l.length / 2) 0 with hm | hm
        · exact hb _ (sortR_mem hm)
        · rw [hm]; norm_num
      constructor <;> [linarith [b1.1, b2.1]; linarith [b1.2, b2.2]]

theorem gaussAt_unit (σ : ℝ) (sample : ℤ → ℝ)
    (hs : ∀ z, 0 ≤ sample z ∧ sample z ≤ 1) (j : ℕ) :
    0 ≤ gaussAt σ sample j ∧ gaussAt σ sample j ≤ 1 := by
  unfold gaussAt
  have hne : ((List.range (2 * gaussRadius σ + 1)).map
      (fun (o : ℕ) => (o : ℤ) - (gaussRadius σ : ℤ))) ≠ [] := by
    intro hcon
    have hlen := congrArg List.length hcon
    rw [List.length_map, List.length_range, List.length_nil] at hlen
    exact absurd hlen (by omega)
  have hdenpos : 0 < (((List.range (2 * gaussRadius σ + 1)).map
      (fun (o : ℕ) => (o : ℤ) - (gaussRadius σ : ℤ))).map (fun o => gaussW σ o)).sum := by
    apply List.sum_pos
    · intro x hx
      obtain ⟨o, _, rfl⟩ := List.mem_map.mp hx
      exact Real.exp_pos _
    · simp [hne]
  constructor
  · apply div_nonneg _ hdenpos.le
    apply List.sum_nonneg
    intro x hx
    obtain ⟨o, _, rfl⟩ := List.mem_map.mp hx
    exact mul_nonneg (Real.exp_pos _).le (hs _).1
  · rw [div_le_one hdenpos]
    apply List.sum_le_sum
    intro o _
    have hb := hs ((j : ℤ) + o)
    have hw : (0:ℝ) ≤ gaussW σ o := (Real.exp_pos _).le
    exact mul_le_of_le_one_right hw hb.2

theorem inUnit_genStack {T H W : ℕ} {f : ℕ → ℕ → ℕ → ℝ}
    (hf : ∀ t y x, 0 ≤ f t y x ∧ f t y x ≤ 1) : inUnit (genStack T H W f) := by
  intro fr hfr row hrow v hv
  obtain ⟨ti, _, rfl⟩ := List.mem_map.mp hfr
  obtain ⟨yi, _, rfl⟩ := List.mem_map.mp hrow
  obtain ⟨xi, _, rfl⟩ := List.mem_map.mp hv
  exact hf ti yi xi

theorem inUnit_mapStack {s : GrayStack} {f : ℝ → ℝ} (hs : inUnit s)
    (hf : ∀ v, 0 ≤ v → v ≤ 1 → 0 ≤ f v ∧ f v ≤ 1) :
    inUnit (mapStack f s) := by
  intro fr hfr row hrow v hv
  obtain ⟨fr0, hfr0, rfl⟩ := List.mem_map.mp hfr
  obtain ⟨row0, hrow0, rfl⟩ := List.mem_map.mp hrow
  obtain ⟨v0, hv0, rfl⟩ := List.mem_map.mp hv
  obtain ⟨h0, h1⟩ := hs fr0 hfr0 row0 hrow0 v0 hv0
  exact hf v0 h0 h1

theorem inUnit_clip (s : GrayStack) (p1 p99 : ℝ) :
    inUnit (mapStack (fun v => min (max ((v - p1) / (p99 - p1)) 0) 1) s) := by
  intro fr hfr row hrow v hv
  obtain ⟨fr0, _, rfl⟩ := List.mem_map.mp hfr
  obtain ⟨row0, _, rfl⟩ := List.mem_map.mp hrow
  obtain ⟨v0, _, rfl⟩ := List.mem_map.mp hv
  constructor
  · exact le_min (le_max_right _ _) zero_le_one
  · exact min_le_right _ _

theorem log_compress_unit (v : ℝ) (h0 : 0 ≤ v) (h1 : v ≤ 1) :
    0 ≤ Real.log (1 + 20 * v) / Real.log 21 ∧
    Real.log (1 + 20 * v) / Real.log 21 ≤ 1 := by
  have hl21 : 0 < Real.log 21 := Real.log_pos (by norm_num)
  have hnum0 : 0 ≤ Real.log (1 + 20 * v) := Real.log_nonneg (by linarith)
  have hnum1 : Real.log (1 + 20 * v) ≤ Real.log 21 := by
    apply Real.log_le_log (by linarith)
    linarith
  exact ⟨div_nonneg hnum0 hl21.le, (div_le_one hl21).mpr hnum1⟩

theorem stage_log_unit (use_log : Bool) (X : GrayStack) (hX : inUnit X) :
    inUnit (if use_log then
      mapStack (fun v => Real.log (1 + 20 * v) / Real.log 21) X else X) := by
  split
  · exact inUnit_mapStack hX log_compress_unit
  · exact hX

theorem median_spatial_unit (X : GrayStack) (hX : inUnit X) :
    inUnit (median_spatial X) := by
  unfold median_spatial
  apply inUnit_genStack
  intro t y x
  apply medianR_unit
  intro v hv
  rw [List.mem_flatten] at hv
  obtain ⟨row, hrow, hv⟩ := hv
  obtain ⟨dy, _, rfl⟩ := List.mem_map.mp hrow
  obtain ⟨dx, _, rfl⟩ := List.mem_map.mp hv
  exact sampAt_unit hX _ _ _

theorem gauss_spatial_unit (σ : ℝ) (X : GrayStack) (hX : inUnit X) :
    inUnit (gauss_spatial σ X) := by
  unfold gauss_spatial
  apply inUnit_genStack
  intro t y x
  apply gaussAt_unit
  intro z
  apply sampAt_unit
  apply inUnit_genStack
  intro t' y' x'
  apply gaussAt_unit
  intro z'
  exact sampAt_unit hX _ _ _

theorem stage_spatial_unit (spatial : Option String) (X : GrayStack)
    (hX : inUnit X) :
    inUnit (if spatial = some "median" then median_spatial X
      else if spatial = some "gaussian" then gauss_spatial (3/5) X else X) := by
  split
  · exact median_spatial_unit X hX
  · split
    · exact gauss_spatial_unit _ X hX
    · exact hX

theorem stage_baseline_unit (N : ℕ) (X : GrayStack) (hX : inUnit X) :
    inUnit (if 0 < N then
      genStack X.length (stackHR X) (stackWR X) (fun ti yi xi =>
        max (sampAt X ti yi xi -
          medianR ((List.range N).map (fun fj => sampAt X fj yi xi))) 0)
      else X) := by
  split
  · apply inUnit_genStack
    intro t y x
    have hmed : 0 ≤ medianR ((List.range N).map (fun fj => sampAt X fj y x)) ∧
        medianR ((List.range N).map (fun fj => sampAt X fj y x)) ≤ 1 := by
      apply medianR_unit
      intro v hv
      obtain ⟨fj, _, rfl⟩ := List.mem_map.mp hv
      exact sampAt_unit hX _ _ _
    have hsv := sampAt_unit hX t y x
    constructor
    · exact le_max_right _ _
    · apply max_le _ (by norm_num)
      linarith [hmed.1, hsv.2]
  · exact hX

theorem gauss_temporal_unit (σ : ℝ) (X : GrayStack) (hX : inUnit X) :
    inUnit (gauss_temporal σ X) := by
  unfold gauss_temporal
  apply inUnit_genStack
  intro t y x
  apply gaussAt_unit
  intro z
  exact sampAt_unit hX _ _ _

theorem mean_temporal_unit (k : ℕ) (hk : 1 ≤ k) (X : GrayStack)
    (hX : inUnit X) : inUnit (mean_temporal k X) := by
  unfold mean_temporal
  apply inUnit_genStack
  intro t y x
  have hkpos : (0:ℝ) < (k : ℝ) := by
    exact_mod_cast Nat.lt_of_lt_of_le Nat.zero_lt_one hk
  constructor
  · apply div_nonneg _ hkpos.le
    apply List.sum_nonneg
    intro v hv
    obtain ⟨o, _, rfl⟩ := List.mem_map.mp hv
    exact (sampAt_unit hX _ _ _).1
  · rw [div_le_one hkpos]
    refine le_trans (List.sum_le_sum (g := fun _ => (1:ℝ))
      (fun o _ => (sampAt_unit hX _ _ _).2)) ?_
    simp [List.map_const, List.sum_replicate, nsmul_eq_mul]

theorem stage_temporal_unit (temporal : Option String) (t_win : ℕ)
    (X : GrayStack) (hX : inUnit X) :
    inUnit (if temporal = some "gaussian" ∧ 1 < X.length then
      gauss_temporal (max (1/2) (((t_win : ℝ) - 1) / 2)) X
    else if temporal = some "mean" ∧ 1 < X.length then
      mean_temporal (if (max 1 t_win) % 2 = 1 then max 1 t_win else max 1 t_win + 1) X
    else X) := by
  split
  · exact gauss_temporal_unit _ X hX
  · split
    · apply mean_temporal_unit _ _ X hX
      split <;> omega
    · exact hX

/-- C10: for every input stack (single- or multi-channel) and every
combination of toggles — log-compression on or off, any spatial and any
temporal filter choice, any temporal window, any baseline-frame count, any
percentile bounds — every value of the stack returned by the Preprocessor
lies in `[0, 1]`; in particular the output is never negative even after
baseline subtraction and temporal filtering. -/
theorem C10_preprocessor_unit_range (stack : CeusInput) (use_log : Bool)
    (p_lo p_hi : ℝ) (spatial temporal : Option String) (t_win : ℕ)
    (baseline_frames : Option ℤ) :
    inUnit (preprocess_ceus stack use_log p_lo p_hi spatial temporal t_win
      baseline_frames) := by
  suffices h : ∀ X0 : GrayStack,
      inUnit (preprocess_gray X0 use_log p_lo p_hi spatial temporal t_win
        baseline_frames) by
    cases stack with
    | gray g => exact h g
    | rgb r => exact h _
  intro X0
  simp only [preprocess_gray]
  apply stage_temporal_unit
  apply stage_baseline_unit
  apply stage_spatial_unit
  apply stage_log_unit
  apply inUnit_clip

/-- Witness for C10: a concrete sample of a concretely preprocessed stack
lies in `[0, 1]`. -/
theorem C10_preprocessor_unit_range_witness :
    0 ≤ sampAt (preprocess_ceus (CeusInput.gray [[[5]]]) true 1 99
      (some "median") (some "gaussian") 3 (some 5)) 0 0 0 ∧
    sampAt (preprocess_ceus (CeusInput.gray [[[5]]]) true 1 99
      (some "median") (some "gaussian") 3 (some 5)) 0 0 0 ≤ 1 :=
  sampAt_unit (C10_preprocessor_unit_range (CeusInput.gray [[[5]]]) true 1 99
    (some "median") (some "gaussian") 3 (some 5)) 0 0 0

/-! ### Shape propagation through the preprocessing stages -/

theorem rect3_mapStack {s : GrayStack} {T H W : ℕ} (f : ℝ → ℝ)
    (h : rect3 s T H W) : rect3 (mapStack f s) T H W := by
  obtain ⟨hT, hfr⟩ := h
  refine ⟨by simpa [mapStack] using hT, ?_⟩
  intro fr hfr'
  obtain ⟨fr0, hfr0, rfl⟩ := List.mem_map.mp hfr'
  obtain ⟨hH, hrow⟩ := hfr fr0 hfr0
  refine ⟨by simpa using hH, ?_⟩
  intro row hrow'
  obtain ⟨row0, hrow0, rfl⟩ := List.mem_map.mp hrow'
  simpa using hrow row0 hrow0

theorem rect3_genStack (T H W : ℕ) (f : ℕ → ℕ → ℕ → ℝ) :
    rect3 (genStack T H W f) T H W := by
  refine ⟨by simp [genStack], ?_⟩
  intro fr hfr
  obtain ⟨ti, _, rfl⟩ := List.mem_map.mp hfr
  refine ⟨by simp, ?_⟩
  intro row hrow
  obtain ⟨yi, _, rfl⟩ := List.mem_map.mp hrow
  simp

theorem stackHR_rect {s : GrayStack} {T H W : ℕ} (h : rect3 s T H W)
    (hne : s ≠ []) : stackHR s = H := by
  cases s with
  | nil => exact absurd rfl hne
  | cons a t => exact (h.2 a (List.mem_cons_self a t)).1

theorem stackWR_rect {s : GrayStack} {T H W : ℕ} (h : rect3 s T H W)
    (hne : s ≠ []) (hH : 0 < H) : stackWR s = W := by
  cases s with
  | nil => exact absurd rfl hne
  | cons a t =>
    obtain ⟨hlen, hrow⟩ := h.2 a (List.mem_cons_self a t)
    cases a with
    | nil => rw [List.length_nil] at hlen; omega
    | cons r rs => exact hrow r (List.mem_cons_self r rs)

theorem rect3_genStack_self {s : GrayStack} {T H W : ℕ} (h : rect3 s T H W)
    (f : ℕ → ℕ → ℕ → ℝ) :
    rect3 (genStack s.length (stackHR s) (stackWR s) f) T H W := by
  by_cases hne : s = []
  · subst hne
    have hT : T = 0 := h.1.symm
    subst hT
    exact ⟨by simp [genStack], by simp [genStack]⟩
  · have hHR := stackHR_rect h hne
    by_cases hH0 : H = 0
    · subst hH0
      refine ⟨by simp [genStack, h.1], ?_⟩
      intro fr hfr
      obtain ⟨ti, _, rfl⟩ := List.mem_map.mp hfr
      exact ⟨by simp [hHR], by simp [hHR]⟩
    · have hWR := stackWR_rect h hne (by omega)
      rw [h.1, hHR, hWR]
      exact rect3_genStack T H W f

theorem median_spatial_rect {s : GrayStack} {T H W : ℕ} (h : rect3 s T H W) :
    rect3 (median_spatial s) T H W := by
  unfold median_spatial
  exact rect3_genStack_self h _

theorem gauss_spatial_rect (σ : ℝ) {s : GrayStack} {T H W : ℕ}
    (h : rect3 s T H W) : rect3 (gauss_spatial σ s) T H W := by
  simp only [gauss_spatial]
  exact rect3_genStack_self (rect3_genStack_self h _) _

theorem gauss_temporal_rect (σ : ℝ) {s : GrayStack} {T H W : ℕ}
    (h : rect3 s T H W) : rect3 (gauss_temporal σ s) T H W := by
  unfold gauss_temporal
  exact rect3_genStack_self h _

theorem mean_temporal_rect (k : ℕ) {s : GrayStack} {T H W : ℕ}
    (h : rect3 s T H W) : rect3 (mean_temporal k s) T H W := by
  unfold mean_temporal
  exact rect3_genStack_self h _

theorem stage_log_rect (use_log : Bool) (X : GrayStack) {T H W : ℕ}
    (hX : rect3 X T H W) :
    rect3 (if use_log then
      mapStack (fun v => Real.log (1 + 20 * v) / Real.log 21) X else X) T H W := by
  split
  · exact rect3_mapStack _ hX
  · exact hX

theorem stage_spatial_rect (spatial : Option String) (X : GrayStack)
    {T H W : ℕ} (hX : rect3 X T H W) :
    rect3 (if spatial = some "median" then median_spatial X
      else if spatial = some "gaussian" then gauss_spatial (3/5) X else X) T H W := by
  split
  · exact median_spatial_rect hX
  · split
    · exact gauss_spatial_rect _ hX
    · exact hX

theorem stage_baseline_rect (N : ℕ) (f : ℕ → ℕ → ℕ → ℝ) (X : GrayStack)
    {T H W : ℕ} (hX : rect3 X T H W) :
    rect3 (if 0 < N then genStack X.length (stackHR X) (stackWR X) f else X)
      T H W := by
  split
  · exact rect3_genStack_self hX f
  · exact hX

theorem stage_temporal_rect (temporal : Option String) (t_win : ℕ)
    (X : GrayStack) {T H W : ℕ} (hX : rect3 X T H W) :
    rect3 (if temporal = some "gaussian" ∧ 1 < X.length then
      gauss_temporal (max (1/2) (((t_win : ℝ) - 1) / 2)) X
    else if temporal = some "mean" ∧ 1 < X.length then
      mean_temporal (if (max 1 t_win) % 2 = 1 then max 1 t_win else max 1 t_win + 1) X
    else X) T H W := by
  split
  · exact gauss_temporal_rect _ hX
  · split
    · exact mean_temporal_rect _ hX
    · exact hX

theorem preprocess_gray_rect (X0 : GrayStack) (use_log : Bool)
    (p_lo p_hi : ℝ) (spatial temporal : Option String) (t_win : ℕ)
    (bf : Option ℤ) {T H W : ℕ} (h : rect3 X0 T H W) :
    rect3 (preprocess_gray X0 use_log p_lo p_hi spatial temporal t_win bf)
      T H W := by
  simp only [preprocess_gray]
  apply stage_temporal_rect
  apply stage_baseline_rect
  apply stage_spatial_rect
  apply stage_log_rect
  exact rect3_mapStack _ h

theorem rect3_to_gray {r : RGBStack} {T H W : ℕ} (h : rect3rgb r T H W) :
    rect3 (r.map to_gray) T H W := by
  obtain ⟨hT, hfr⟩ := h
  refine ⟨by simpa using hT, ?_⟩
  intro fr hfr'
  obtain ⟨fr0, hfr0, rfl⟩ := List.mem_map.mp hfr'
  obtain ⟨hH, hrow⟩ := hfr fr0 hfr0
  refine ⟨by simpa [to_gray] using hH, ?_⟩
  intro row hrow'
  simp only [to_gray] at hrow'
  obtain ⟨row0, hrow0, rfl⟩ := List.mem_map.mp hrow'
  simpa using hrow row0 hrow0

theorem shapeOut_of_rect {s : GrayStack} {T H W : ℕ} (h : rect3 s T H W)
    (hT : 0 < T) (hH : 0 < H) : shapeOut s = [T, H, W] := by
  have hne : s ≠ [] := by
    intro hc
    rw [hc] at h
    have h0 := h.1
    rw [List.length_nil] at h0
    omega
  unfold shapeOut
  rw [h.1, stackHR_rect h hne, stackWR_rect h hne hH]

/-- C5 counterexample: a `1 × 1 × 1 × 3` multi-channel input (under the
default parameters) is reduced to luminance, so the output has numpy shape
`(1, 1, 1)`, not the input's `(1, 1, 1, 3)` — the Preprocessor does not
return a stack of the same shape for multi-channel input. -/
theorem C5_shape_counterexample :
    shapeOut (preprocess_ceus (CeusInput.rgb [[[((1:ℝ), 2, 3)]]]) true 1 99
        (some "median") (some "gaussian") 3 (some 5)) ≠
      shapeIn (CeusInput.rgb [[[((1:ℝ), 2, 3)]]]) := by
  have hrect : rect3rgb [[[((1:ℝ), 2, 3)]]] 1 1 1 := by
    refine ⟨rfl, ?_⟩
    intro fr hfr
    simp only [List.mem_singleton] at hfr
    subst hfr
    refine ⟨rfl, ?_⟩
    intro row hrow
    simp only [List.mem_singleton] at hrow
    subst hrow
    rfl
  have hout : rect3 (preprocess_ceus (CeusInput.rgb [[[((1:ℝ), 2, 3)]]]) true 1 99
      (some "median") (some "gaussian") 3 (some 5)) 1 1 1 := by
    simp only [preprocess_ceus]
    exact preprocess_gray_rect _ _ _ _ _ _ _ _ (rect3_to_gray hrect)
  rw [shapeOut_of_rect hout (by norm_num) (by norm_num)]
  simp [shapeIn]

/-- C5 amended: the Preprocessor always returns a `(T, H, W)` stack — a
single-channel `(T, H, W)` input keeps its shape through every stage, while
a multi-channel `(T, H, W, 3)` input is reduced to luminance and comes out
with shape `(T, H, W)` (the channel axis is dropped, per the source's own
docstring "Returns: Preprocessed stack (T, H, W)"). -/
theorem C5_shape_amended :
    (∀ (g : GrayStack) (T H W : ℕ) (use_log : Bool) (p_lo p_hi : ℝ)
      (spatial temporal : Option String) (t_win : ℕ) (bf : Option ℤ),
      rect3 g T H W →
      rect3 (preprocess_ceus (CeusInput.gray g) use_log p_lo p_hi spatial
        temporal t_win bf) T H W) ∧
    (∀ (r : RGBStack) (T H W : ℕ) (use_log : Bool) (p_lo p_hi : ℝ)
      (spatial temporal : Option String) (t_win : ℕ) (bf : Option ℤ),
      rect3rgb r T H W →
      rect3 (preprocess_ceus (CeusInput.rgb r) use_log p_lo p_hi spatial
        temporal t_win bf) T H W) := by
  constructor
  · intro g T H W use_log p_lo p_hi spatial temporal t_win bf h
    simp only [preprocess_ceus]
    exact preprocess_gray_rect _ _ _ _ _ _ _ _ h
  · intro r T H W use_log p_lo p_hi spatial temporal t_win bf h
    simp only [preprocess_ceus]
    exact preprocess_gray_rect _ _ _ _ _ _ _ _ (rect3_to_gray h)

/-- Witness for the amended C5 at concrete gray and RGB inputs. -/
theorem C5_shape_amended_witness :
    rect3 [[[(5:ℝ)]]] 1 1 1 ∧ rect3rgb [[[((1:ℝ), 2, 3)]]] 1 1 1 ∧
    rect3 (preprocess_ceus (CeusInput.gray [[[(5:ℝ)]]]) true 1 99
      (some "median") (some "gaussian") 3 (some 5)) 1 1 1 ∧
    rect3 (preprocess_ceus (CeusInput.rgb [[[((1:ℝ), 2, 3)]]]) true 1 99
      (some "median") (some "gaussian") 3 (some 5)) 1 1 1 := by
  have h1 : rect3 [[[(5:ℝ)]]] 1 1 1 := by
    refine ⟨rfl, ?_⟩
    intro fr hfr
    simp only [List.mem_singleton] at hfr
    subst hfr
    refine ⟨rfl, ?_⟩
    intro row hrow
    simp only [List.mem_singleton] at hrow
    subst hrow
    rfl
  have h2 : rect3rgb [[[((1:ℝ), 2, 3)]]] 1 1 1 := by
    refine ⟨rfl, ?_⟩
    intro fr hfr
    simp only [List.mem_singleton] at hfr
    subst hfr
    refine ⟨rfl, ?_⟩
    intro row hrow
    simp only [List.mem_singleton] at hrow
    subst hrow
    rfl
  exact ⟨h1, h2,
    C5_shape_amended.1 [[[(5:ℝ)]]] 1 1 1 true 1 99 (some "median")
      (some "gaussian") 3 (some 5) h1,
    C5_shape_amended.2 [[[((1:ℝ), 2, 3)]]] 1 1 1 true 1 99 (some "median")
      (some "gaussian") 3 (some 5) h2⟩

end BloodFlow
